import Mathlib

/-!
Verification development for the delegated-routing repro server (`repro.mjs`).

The subsystem under study consists of:

* `pubsubTopicToDhtKeyCid` — derivation of a routing key (a CIDv1 with raw
  codec 0x55 wrapping a sha2-256 multihash) from a pubsub topic string;
* the in-memory provider directory (`providersByCid` map, `announceProvider`)
  with a fixed 24h TTL and lazy eviction on lookup;
* the HTTP handler of `createDelegatedRouterServer`, which serves
  `GET /routing/v1/providers/{cid}` and a catch-all 404.

The embedding is executable throughout.  The `multiformats` library functions
the code calls (`CID.parse`, `CID.create`, `Digest.create`, `toString`,
base32/base58btc multibase codecs, varints) and `js-sha256` are modelled
byte-for-byte at their interfaces; machine integers are `Nat` with explicit
`% 2^32` where overflow matters.  Timestamps are `Nat` milliseconds; the
`Date.now()` reads inside one request are modelled as a single instant `now`
passed to the handler (the spec's injected clock).
-/

namespace DelegatedRouting

/-! ## Bits and bytes -/

/-- The eight bits of a byte, most significant first. -/
def byteBits (n : Nat) : List Bool :=
  [n.testBit 7, n.testBit 6, n.testBit 5, n.testBit 4,
   n.testBit 3, n.testBit 2, n.testBit 1, n.testBit 0]

/-- Value of a bit string, most significant first. -/
def bitsVal (l : List Bool) : Nat :=
  l.foldl (fun acc b => acc * 2 + (if b then 1 else 0)) 0

/-- The five bits of a 5-bit group, most significant first. -/
def quintBits (n : Nat) : List Bool :=
  [n.testBit 4, n.testBit 3, n.testBit 2, n.testBit 1, n.testBit 0]

/-- All bits of a byte sequence, in stream order. -/
def bytesBits (bs : List Nat) : List Bool := bs.flatMap byteBits

/-- Reassemble bytes from a bit stream, eight bits at a time (a trailing
partial group is dropped; callers only pass multiples of eight). -/
def bytesOfBits : List Bool → List Nat
  | b7 :: b6 :: b5 :: b4 :: b3 :: b2 :: b1 :: b0 :: rest =>
      bitsVal [b7, b6, b5, b4, b3, b2, b1, b0] :: bytesOfBits rest
  | _ => []

/-- Predicate: every element is a byte value. -/
def ByteOk (bs : List Nat) : Prop := ∀ x ∈ bs, x < 256

instance (bs : List Nat) : Decidable (ByteOk bs) := by
  unfold ByteOk; infer_instance

/-! ## Base32 (RFC 4648 lowercase, as in the `multiformats` `base32` multibase:
encoding emits no padding; decoding strips trailing `=` and requires the
leftover bits of the final character to be zero). -/

/-- The base32 alphabet. -/
def alpha32 : List Char := "abcdefghijklmnopqrstuvwxyz234567".data

/-- Character for a 5-bit value. -/
def chr32 (v : Nat) : Char := alpha32.getD v ' '

/-- Value of a base32 character, `none` if it is not in the alphabet. -/
def idx32 (c : Char) : Option Nat :=
  (List.range 32).findSome? fun v => if chr32 v = c then some v else none

/-- Split a bit stream into 5-bit groups; the final partial group is padded
with zero bits on the right, as the RFC 4648 encoder does. -/
def toQuintVals : List Bool → List Nat
  | b4 :: b3 :: b2 :: b1 :: b0 :: rest => bitsVal [b4, b3, b2, b1, b0] :: toQuintVals rest
  | [] => []
  | [a] => [bitsVal [a, false, false, false, false]]
  | [a, b] => [bitsVal [a, b, false, false, false]]
  | [a, b, c] => [bitsVal [a, b, c, false, false]]
  | [a, b, c, d] => [bitsVal [a, b, c, d, false]]

/-- Bit stream of a sequence of 5-bit groups. -/
def fromQuintVals (vs : List Nat) : List Bool := vs.flatMap quintBits

/-- RFC 4648 base32 (lowercase, unpadded) encoding of a byte sequence. -/
def b32encode (bs : List Nat) : List Char :=
  (toQuintVals (bytesBits bs)).map chr32

/-- Drop trailing `=` padding characters, as the multiformats decoder does. -/
def stripPad (cs : List Char) : List Char :=
  (cs.reverse.dropWhile (fun c => c = '=')).reverse

/-- RFC 4648 base32 decoding: strips `=` padding, rejects characters outside
the alphabet, and rejects a final group with five or more leftover bits or
nonzero leftover bits. -/
def b32decode (cs : List Char) : Option (List Nat) :=
  match (stripPad cs).mapM idx32 with
  | none => none
  | some vs =>
    let total := vs.length * 5
    let bits := fromQuintVals vs
    if 5 ≤ total % 8 then none
    else if (bits.drop (total / 8 * 8)).any (fun b => b) then none
    else some (bytesOfBits (bits.take (total / 8 * 8)))

/-! ## Base58btc (the `base-x` big-number code used by multiformats:
leading zero bytes become leading `1` characters, the rest is the number in
big-endian base 58). -/

/-- The base58btc alphabet. -/
def alpha58 : List Char := "123456789ABCDEFGHJKLMNPQRSTUVWXYZabcdefghijkmnopqrstuvwxyz".data

/-- Character for a base-58 digit. -/
def chr58 (v : Nat) : Char := alpha58.getD v ' '

/-- Value of a base58btc character, `none` if it is not in the alphabet. -/
def idx58 (c : Char) : Option Nat :=
  (List.range 58).findSome? fun v => if chr58 v = c then some v else none

/-- Little-endian digits of `n` in base `b` (fuelled so that it is structural;
`fuel ≥ n` is always sufficient). -/
def digitsLEAux (b : Nat) : Nat → Nat → List Nat
  | 0, _ => []
  | fuel + 1, n => if n = 0 then [] else n % b :: digitsLEAux b fuel (n / b)

/-- Little-endian digits of `n` in base `b`; empty for `n = 0`. -/
def digitsLE (b n : Nat) : List Nat := digitsLEAux b n n

/-- Big-endian value of a digit list in base `b`. -/
def beVal (b : Nat) (l : List Nat) : Nat :=
  l.foldl (fun acc d => acc * b + d) 0

/-- Number of leading zeros of a digit list. -/
def leadZeros : List Nat → Nat
  | [] => 0
  | x :: xs => if x = 0 then leadZeros xs + 1 else 0

/-- Base58btc encoding of a byte sequence. -/
def b58encode (bs : List Nat) : List Char :=
  List.replicate (leadZeros bs) '1' ++ (digitsLE 58 (beVal 256 bs)).reverse.map chr58

/-- Base58btc decoding of a character sequence. -/
def b58decode (cs : List Char) : Option (List Nat) :=
  match cs.mapM idx58 with
  | none => none
  | some vs =>
      some (List.replicate (leadZeros vs) 0 ++ (digitsLE 256 (beVal 58 vs)).reverse)

/-! ## Unsigned varints (LEB128, as in the `varint` package used by
multiformats: the decoder reads at most eight bytes — `shift > 49` throws). -/

/-- Minimal LEB128 encoding (fuelled structural recursion; `fuel > n` always
suffices because `n / 128 < n` for `n ≥ 128`). -/
def varintEncAux : Nat → Nat → List Nat
  | 0, n => [n % 128]
  | fuel + 1, n => if n < 128 then [n] else (n % 128 + 128) :: varintEncAux fuel (n / 128)

/-- Minimal LEB128 encoding of `n`. -/
def varintEnc (n : Nat) : List Nat := varintEncAux n n

/-- LEB128 decoding reading at most `allowed` bytes, returning the value and
the remaining bytes. -/
def varintDecAux : Nat → List Nat → Option (Nat × List Nat)
  | 0, _ => none
  | _ + 1, [] => none
  | allowed + 1, b :: rest =>
      if b < 128 then some (b, rest)
      else match varintDecAux allowed rest with
        | none => none
        | some (v, r) => some (b % 128 + 128 * v, r)

/-- LEB128 decoding with the 8-byte limit of the `varint` package. -/
def varintDec (bs : List Nat) : Option (Nat × List Nat) := varintDecAux 8 bs

/-! ## CIDs (`multiformats/cid`).

A JS `CID` object carries its fields together with its byte representation;
`toString` re-encodes the stored bytes (it does not re-serialize the fields),
and `CID.parse`/`CID.decode` derive the fields from the bytes.  We model the
object as a structure holding both, with `cidDecode` as the source of truth
for field/byte consistency. -/

structure Cid where
  version : Nat
  codec : Nat
  mhCode : Nat
  mhDigest : List Nat
  bytes : List Nat
  deriving DecidableEq, Repr

/-- `CID.decode` / `CID.inspectBytes`: read the version varint (a leading
varint of 18, i.e. a sha2-256 multihash code, means an implicit CIDv0 whose
bytes are just the multihash), then for v1 the codec varint, then the
multihash (hash-code varint, size varint, digest); the digest must use the
remaining bytes exactly. -/
def cidDecode (bs : List Nat) : Option Cid :=
  match varintDec bs with
  | none => none
  | some (v, r1) =>
    if v = 18 then
      match varintDec r1 with
      | none => none
      | some (size, r2) =>
          if r2.length = size then some ⟨0, 0x70, 18, r2, bs⟩ else none
    else if v = 1 then
      match varintDec r1 with
      | none => none
      | some (codec, r2) =>
        match varintDec r2 with
        | none => none
        | some (code, r3) =>
          match varintDec r3 with
          | none => none
          | some (size, r4) =>
              if r4.length = size then some ⟨1, codec, code, r4, bs⟩ else none
    else none

/-- `Digest.create(code, digest)`: multihash bytes are the hash-code varint,
the size varint and the digest. -/
def digestBytes (code : Nat) (digest : List Nat) : List Nat :=
  varintEnc code ++ varintEnc digest.length ++ digest

/-- `CID.create(1, codec, digest)`: byte form is the version varint, the codec
varint and the multihash bytes. -/
def cidCreateV1 (codec code : Nat) (digest : List Nat) : Cid :=
  ⟨1, codec, code, digest, varintEnc 1 ++ varintEnc codec ++ digestBytes code digest⟩

/-- `cid.toString()` with the default bases: CIDv0 is base58btc without a
multibase marker, CIDv1 is base32 with the `b` marker. -/
def cidToString (c : Cid) : String :=
  if c.version = 0 then String.mk (b58encode c.bytes)
  else String.mk ('b' :: b32encode c.bytes)

/-- `CID.parse` with no explicit base: a string starting `Q` is decoded as
base58btc CIDv0-style, `z` as base58btc, `b` as base32; anything else throws.
A decoded CID of version 0 is rejected unless the string started with `Q`. -/
def cidParse (s : String) : Option Cid :=
  match s.data with
  | [] => none
  | ch :: rest =>
    if ch = 'Q' then
      match b58decode s.data with
      | none => none
      | some bs => cidDecode bs
    else if ch = 'z' then
      match b58decode rest with
      | none => none
      | some bs =>
        match cidDecode bs with
        | none => none
        | some c => if c.version = 0 then none else some c
    else if ch = 'b' then
      match b32decode rest with
      | none => none
      | some bs =>
        match cidDecode bs with
        | none => none
        | some c => if c.version = 0 then none else some c
    else none

/-- Field/byte consistency: the CID is what its own bytes decode to. -/
def CidOk (c : Cid) : Prop := cidDecode c.bytes = some c ∧ ByteOk c.bytes

instance (c : Cid) : Decidable (CidOk c) := by
  unfold CidOk; infer_instance

/-- Valid identifiers whose `toString` is the canonical serialization of the
claims: any consistent CIDv1, or a standard CIDv0 (sha2-256, 32-byte digest,
minimal header bytes `0x12 0x20`). -/
def CidGood (c : Cid) : Prop :=
  CidOk c ∧ (c.version = 1 ∨
    (c.version = 0 ∧ c.mhDigest.length = 32 ∧ c.bytes = 18 :: 32 :: c.mhDigest))

instance (c : Cid) : Decidable (CidGood c) := by
  unfold CidGood; infer_instance

/-! ## SHA-256 (`js-sha256` at its interface: bytes in, 32 digest bytes out). -/

/-- Truncate to a 32-bit word. -/
def w32 (n : Nat) : Nat := n % 4294967296

/-- 32-bit right rotation. -/
def rotr (k x : Nat) : Nat := w32 ((x >>> k) ||| (x <<< (32 - k)))

/-- 32-bit complement. -/
def cpl (x : Nat) : Nat := x ^^^ 4294967295

def shaCh (x y z : Nat) : Nat := (x &&& y) ^^^ (cpl x &&& z)

def shaMaj (x y z : Nat) : Nat := (x &&& y) ^^^ (x &&& z) ^^^ (y &&& z)

def bsig0 (x : Nat) : Nat := rotr 2 x ^^^ rotr 13 x ^^^ rotr 22 x

def bsig1 (x : Nat) : Nat := rotr 6 x ^^^ rotr 11 x ^^^ rotr 25 x

def ssig0 (x : Nat) : Nat := rotr 7 x ^^^ rotr 18 x ^^^ (x >>> 3)

def ssig1 (x : Nat) : Nat := rotr 17 x ^^^ rotr 19 x ^^^ (x >>> 10)

/-- SHA-256 round constants (FIPS 180-4, in decimal). -/
def shaK : List Nat :=
  [1116352408, 1899447441, 3049323471, 3921009573, 961987163, 1508970993,
   2453635748, 2870763221, 3624381080, 310598401, 607225278, 1426881987,
   1925078388, 2162078206, 2614888103, 3248222580, 3835390401, 4022224774,
   264347078, 604807628, 770255983, 1249150122, 1555081692, 1996064986,
   2554220882, 2821834349, 2952996808, 3210313671, 3336571891, 3584528711,
   113926993, 338241895, 666307205, 773529912, 1294757372, 1396182291,
   1695183700, 1986661051, 2177026350, 2456956037, 2730485921, 2820302411,
   3259730800, 3345764771, 3516065817, 3600352804, 4094571909, 275423344,
   430227734, 506948616, 659060556, 883997877, 958139571, 1322822218,
   1537002063, 1747873779, 1955562222, 2024104815, 2227730452, 2361852424,
   2428436474, 2756734187, 3204031479, 3329325298]

/-- SHA-256 initial hash value (FIPS 180-4, in decimal). -/
def shaH0 : List Nat :=
  [1779033703, 3144134277, 1013904242, 2773480762,
   1359893119, 2600822924, 528734635, 1541459225]

/-- Big-endian 8-byte length field of a message of `len` bytes. -/
def lenBytes (len : Nat) : List Nat :=
  [((len * 8) >>> 56) &&& 255, ((len * 8) >>> 48) &&& 255,
   ((len * 8) >>> 40) &&& 255, ((len * 8) >>> 32) &&& 255,
   ((len * 8) >>> 24) &&& 255, ((len * 8) >>> 16) &&& 255,
   ((len * 8) >>> 8) &&& 255, (len * 8) &&& 255]

/-- SHA-256 padding: a `0x80` byte, zeros to 56 mod 64, then the bit length. -/
def shaPad (msg : List Nat) : List Nat :=
  msg ++ 0x80 :: List.replicate ((119 - msg.length % 64) % 64) 0 ++ lenBytes msg.length

/-- Big-endian 32-bit words of a byte sequence. -/
def wordsOf : List Nat → List Nat
  | b0 :: b1 :: b2 :: b3 :: rest =>
      (((b0 * 256 + b1) * 256 + b2) * 256 + b3) :: wordsOf rest
  | _ => []

/-- 16-word blocks of a word sequence. -/
def blocks16 : List Nat → List (List Nat)
  | w0 :: w1 :: w2 :: w3 :: w4 :: w5 :: w6 :: w7 ::
    w8 :: w9 :: w10 :: w11 :: w12 :: w13 :: w14 :: w15 :: rest =>
      [w0, w1, w2, w3, w4, w5, w6, w7, w8, w9, w10, w11, w12, w13, w14, w15] :: blocks16 rest
  | _ => []

/-- Message-schedule extension: prepend 48 more words to the reversed list. -/
def schedAux : Nat → List Nat → List Nat
  | 0, rev => rev.reverse
  | fuel + 1, rev =>
      schedAux fuel
        (w32 (ssig1 (rev.getD 1 0) + rev.getD 6 0 + ssig0 (rev.getD 14 0) + rev.getD 15 0) :: rev)

/-- The 64-word message schedule of a block. -/
def schedule (block : List Nat) : List Nat := schedAux 48 block.reverse

/-- The 64 compression rounds, on the state `[a, b, c, d, e, f, g, h]`. -/
def rounds : List (Nat × Nat) → List Nat → List Nat
  | (k, w) :: rest, [a, b, c, d, e, f, g, h] =>
      rounds rest
        [w32 (h + bsig1 e + shaCh e f g + k + w + bsig0 a + shaMaj a b c), a, b, c,
         w32 (d + h + bsig1 e + shaCh e f g + k + w), e, f, g]
  | _, s => s

/-- One SHA-256 block compression. -/
def compressBlock (h block : List Nat) : List Nat :=
  (h.zip (rounds (shaK.zip (schedule block)) h)).map fun p => w32 (p.1 + p.2)

/-- Big-endian bytes of a 32-bit word. -/
def wordBytes (w : Nat) : List Nat :=
  [w >>> 24 &&& 255, w >>> 16 &&& 255, w >>> 8 &&& 255, w &&& 255]

/-- SHA-256 of a byte sequence. -/
def sha256Bytes (msg : List Nat) : List Nat :=
  ((blocks16 (wordsOf (shaPad msg))).foldl compressBlock shaH0).flatMap wordBytes

/-! ## UTF-8 (`TextEncoder`) -/

/-- UTF-8 encoding of one scalar value. -/
def utf8Enc (c : Char) : List Nat :=
  let n := c.toNat
  if n < 0x80 then [n]
  else if n < 0x800 then [0xC0 + n / 64, 0x80 + n % 64]
  else if n < 0x10000 then [0xE0 + n / 4096, 0x80 + n / 64 % 64, 0x80 + n % 64]
  else [0xF0 + n / 262144, 0x80 + n / 4096 % 64, 0x80 + n / 64 % 64, 0x80 + n % 64]

/-- UTF-8 bytes of a string, as `new TextEncoder().encode(s)` produces. -/
def utf8Bytes (s : String) : List Nat := s.data.flatMap utf8Enc

/-! ## Key derivation (`pubsubTopicToDhtKeyCid`, repro.mjs lines 31–37) -/

/-- `pubsubTopicToDhtKeyCid`: sha2-256 the UTF-8 bytes of
`floodsub:<topic>`, wrap as a 0x12 multihash digest, build a CIDv1 with
codec 0x55 (raw). -/
def pubsubTopicToDhtKeyCid (pubsubTopic : String) : Cid :=
  let stringToHash := "floodsub:" ++ pubsubTopic
  let bytes := utf8Bytes stringToHash
  let hashBytes := sha256Bytes bytes
  cidCreateV1 0x55 0x12 hashBytes

/-- The derivation algorithm as the spec words it, producing the canonical
string directly: the content identifier is format version `1`, content-type
code `0x55`, wrapping a multihash tagged `0x12` whose payload is the 32-byte
SHA-256 hash of the UTF-8 bytes of `"floodsub:"` concatenated with the topic;
its canonical serialization is the `b`-prefixed base32 form of the bytes
`01 55 12 20` followed by the digest. -/
def deriveSpecStr (topic : String) : String :=
  String.mk ('b' :: b32encode ([1, 0x55, 0x12, 32] ++ sha256Bytes (utf8Bytes ("floodsub:" ++ topic))))

/-! ## Provider directory (repro.mjs lines 40–41, 64–77, 105–114) -/

/-- One announced provider, as the repro constructs it (`ID`, `Addrs`,
`Protocols`). -/
structure ProviderRecord where
  ID : String
  Addrs : List String
  Protocols : List String
  deriving DecidableEq, Repr

/-- A directory entry: the announced record and its absolute expiry time. -/
structure DirEntry where
  peerRecord : ProviderRecord
  expiresAt : Nat
  deriving DecidableEq, Repr

/-- The `providersByCid` JS `Map`, as an insertion-ordered association list
with unique keys. -/
def DirMap := List (String × DirEntry)

instance : DecidableEq DirMap := by unfold DirMap; infer_instance

/-- `Map.prototype.get`. -/
def mapGet (m : DirMap) (k : String) : Option DirEntry :=
  match m with
  | [] => none
  | (k1, v) :: rest => if k1 = k then some v else mapGet rest k

/-- `Map.prototype.set`: replace in place, or append. -/
def mapSet (m : DirMap) (k : String) (v : DirEntry) : DirMap :=
  match m with
  | [] => [(k, v)]
  | (k1, v1) :: rest => if k1 = k then (k, v) :: rest else (k1, v1) :: mapSet rest k v

/-- `Map.prototype.delete`: remove the entry with the given key. -/
def mapDelete (m : DirMap) (k : String) : DirMap :=
  match m with
  | [] => []
  | (k1, v1) :: rest => if k1 = k then rest else (k1, v1) :: mapDelete rest k

/-- Keys of the map. -/
def mapKeys (m : DirMap) : List String := m.map Prod.fst

/-- A JS `Map` never holds two entries with the same key. -/
def MapWf (m : DirMap) : Prop := (mapKeys m).Nodup

instance (m : DirMap) : Decidable (MapWf m) := by
  unfold MapWf; infer_instance

/-- The server's mutable state: the provider map and the query counter. -/
structure ServerState where
  providersByCid : DirMap
  providerQueryCount : Nat
  deriving DecidableEq

/-- `PROVIDER_TTL_MS = 24 * 60 * 60 * 1000` (repro.mjs line 27): a module
constant, closed over by `announceProvider`. -/
def PROVIDER_TTL_MS : Nat := 24 * 60 * 60 * 1000

/-- `getProviderQueryCount` (repro.mjs lines 105–107). -/
def getProviderQueryCount (st : ServerState) : Nat := st.providerQueryCount

/-- `announceProvider(contentCid, peerRecord)` (repro.mjs lines 108–114):
re-parse the canonical string of the given CID, and store the record under
the normalized string with `expiresAt = now + PROVIDER_TTL_MS`.  If
`CID.parse` throws, the map is left unmodified (the exception propagates to
the in-process caller before any mutation). -/
def announceProvider (st : ServerState) (contentCid : Cid) (peerRecord : ProviderRecord)
    (now : Nat) : ServerState :=
  match cidParse (cidToString contentCid) with
  | none => st
  | some c =>
      { st with providersByCid :=
          mapSet st.providersByCid (cidToString c) ⟨peerRecord, now + PROVIDER_TTL_MS⟩ }

/-- Modelled from the spec (§4.2 `ProviderDirectory.announce`), for comparison
with `announceProvider`: `announce(id, record, ttl, now)` inserts or
overwrites the entry for `id`, setting `expiresAt = now + ttl`, with the TTL
injected as a parameter. -/
def announceSpec (ttl : Nat) (st : ServerState) (id : Cid) (record : ProviderRecord)
    (now : Nat) : ServerState :=
  { st with providersByCid := mapSet st.providersByCid (cidToString id) ⟨record, now + ttl⟩ }

/-- The directory-lookup fragment of the handler (repro.mjs lines 64–77):
returns the live record, lazily deleting an expired entry; the result is the
optional record and the map after the call. -/
def lookupProvider (m : DirMap) (normalizedCid : String) (now : Nat) :
    Option ProviderRecord × DirMap :=
  match mapGet m normalizedCid with
  | none => (none, m)
  | some entry =>
      if entry.expiresAt ≤ now then (none, mapDelete m normalizedCid)
      else (some entry.peerRecord, m)

/-! ## Percent-decoding (`decodeURIComponent`, ECMA-262 `Decode` with an
empty reserved set: `%XX` sequences are decoded as strict UTF-8; a `%` not
followed by two hex digits, a bad continuation byte, an overlong form, a
surrogate or an out-of-range code point throw `URIError`). -/

/-- Hex digit value. -/
def hexVal (c : Char) : Option Nat :=
  if '0' ≤ c ∧ c ≤ '9' then some (c.toNat - 48)
  else if 'a' ≤ c ∧ c ≤ 'f' then some (c.toNat - 87)
  else if 'A' ≤ c ∧ c ≤ 'F' then some (c.toNat - 55)
  else none

/-- Read one `%XX` escape. -/
def readPctByte : List Char → Option (Nat × List Char)
  | '%' :: h1 :: h2 :: rest =>
    match hexVal h1, hexVal h2 with
    | some a, some b => some (a * 16 + b, rest)
    | _, _ => none
  | _ => none

/-- Is `b` a UTF-8 continuation byte? -/
def contByte (b : Nat) : Prop := 128 ≤ b ∧ b < 192

instance (b : Nat) : Decidable (contByte b) := by unfold contByte; infer_instance

/-- The ECMA-262 `Decode` loop (fuelled; `fuel ≥` input length suffices since
each step consumes at least one character). -/
def decodeSeqAux : Nat → List Char → Option (List Char)
  | 0, l => match l with | [] => some [] | _ => none
  | _ + 1, [] => some []
  | fuel + 1, '%' :: rest =>
    (match readPctByte ('%' :: rest) with
     | none => none
     | some (b1, r1) =>
       if b1 < 128 then (decodeSeqAux fuel r1).map (Char.ofNat b1 :: ·)
       else if b1 < 192 then none
       else if b1 < 224 then
         match readPctByte r1 with
         | none => none
         | some (b2, r2) =>
           if contByte b2 then
             let v := (b1 - 192) * 64 + (b2 - 128)
             if 128 ≤ v then (decodeSeqAux fuel r2).map (Char.ofNat v :: ·) else none
           else none
       else if b1 < 240 then
         match readPctByte r1 with
         | none => none
         | some (b2, r2) =>
           match readPctByte r2 with
           | none => none
           | some (b3, r3) =>
             if contByte b2 ∧ contByte b3 then
               let v := (b1 - 224) * 4096 + (b2 - 128) * 64 + (b3 - 128)
               if 2048 ≤ v ∧ ¬(55296 ≤ v ∧ v ≤ 57343) then
                 (decodeSeqAux fuel r3).map (Char.ofNat v :: ·)
               else none
             else none
       else if b1 < 248 then
         match readPctByte r1 with
         | none => none
         | some (b2, r2) =>
           match readPctByte r2 with
           | none => none
           | some (b3, r3) =>
             match readPctByte r3 with
             | none => none
             | some (b4, r4) =>
               if contByte b2 ∧ contByte b3 ∧ contByte b4 then
                 let v := (b1 - 240) * 262144 + (b2 - 128) * 4096 + (b3 - 128) * 64 + (b4 - 128)
                 if 65536 ≤ v ∧ v ≤ 1114111 then
                   (decodeSeqAux fuel r4).map (Char.ofNat v :: ·)
                 else none
               else none
       else none)
  | fuel + 1, c :: rest => (decodeSeqAux fuel rest).map (c :: ·)

/-- `decodeURIComponent`, `none` meaning a thrown `URIError`. -/
def decodeURIComp (s : String) : Option String :=
  (decodeSeqAux s.data.length s.data).map String.mk

/-! ## The HTTP handler (repro.mjs lines 43–84) -/

/-- An inbound request, after WHATWG URL parsing: its method and pathname. -/
structure Request where
  method : String
  pathname : String
  deriving DecidableEq

/-- The JSON bodies the handler writes, structurally:
`{"Providers": [...]}` or `{"message": ...}`. -/
inductive Body where
  | providers (ps : List ProviderRecord)
  | message (s : String)
  deriving DecidableEq, Repr

/-- What one request produces: a status/body response, or an exception that
escapes the handler (for Node's `http.Server`, an uncaught exception that
kills the process). -/
inductive HandlerOutcome where
  | response (status : Nat) (body : Body)
  | thrown
  deriving DecidableEq, Repr

/-- The providers route. -/
def providersRoot : String := "/routing/v1/providers/"

/-- `String.prototype.startsWith` on the pathname. -/
def startsWithStr (s p : String) : Bool := decide (s.data.take p.data.length = p.data)

/-- The path slice after the providers route root
(`url.pathname.slice("/routing/v1/providers/".length)`). -/
def cidPartOf (req : Request) : String :=
  String.mk (req.pathname.data.drop providersRoot.data.length)

/-- Is this request a provider-lookup request
(`GET` and pathname starting with `/routing/v1/providers/`)? -/
def isLookupReq (req : Request) : Prop :=
  req.method = "GET" ∧ startsWithStr req.pathname providersRoot = true

instance (req : Request) : Decidable (isLookupReq req) := by
  unfold isLookupReq; infer_instance

/-- The request handler (repro.mjs lines 43–84).  On the providers route it
increments the counter first, slices the path after the route root,
percent-decodes it (a `URIError` here is not caught — outcome `thrown`),
parses the CID (a parse error is caught → 422), and looks up the normalized
string, lazily deleting an expired entry (404) or answering 200 with exactly
the stored record.  Everything else gets the catch-all 404.  The two
`Date.now()` reads are modelled as the single instant `now`. -/
def handleRequest (req : Request) (st : ServerState) (now : Nat) :
    HandlerOutcome × ServerState :=
  if isLookupReq req then
    let count1 := st.providerQueryCount + 1
    match decodeURIComp (cidPartOf req) with
    | none => (HandlerOutcome.thrown, ⟨st.providersByCid, count1⟩)
    | some requestedCid =>
      match cidParse requestedCid with
      | none => (HandlerOutcome.response 422 (Body.providers []), ⟨st.providersByCid, count1⟩)
      | some c =>
        let normalizedCid := cidToString c
        match mapGet st.providersByCid normalizedCid with
        | none => (HandlerOutcome.response 404 (Body.providers []), ⟨st.providersByCid, count1⟩)
        | some entry =>
          if entry.expiresAt ≤ now then
            (HandlerOutcome.response 404 (Body.providers []),
             ⟨mapDelete st.providersByCid normalizedCid, count1⟩)
          else
            (HandlerOutcome.response 200 (Body.providers [entry.peerRecord]),
             ⟨st.providersByCid, count1⟩)
  else
    (HandlerOutcome.response 404 (Body.message "not found"), st)

/-- The string normalization the server applies to identifiers:
`CID.parse(s).toString()`, `none` when parsing throws. -/
def normStr (s : String) : Option String := (cidParse s).map cidToString

/-- A canonical key: a string the normalization maps to itself. -/
def CanonKey (k : String) : Prop := normStr k = some k

/-- Server states reachable from startup: the map starts empty, and evolves
only through handled requests and in-process `announceProvider` calls (with
well-formed identifiers, as produced by `CID.create` or `CID.parse`). -/
inductive Reachable : ServerState → Prop where
  | init : Reachable ⟨[], 0⟩
  | handle (req : Request) (now : Nat) (st : ServerState) :
      Reachable st → Reachable (handleRequest req st now).2
  | announce (c : Cid) (r : ProviderRecord) (now : Nat) (st : ServerState) :
      Reachable st → CidGood c → Reachable (announceProvider st c r now)

/-! ## Round-trip lemmas for the bit-level codec -/

set_option maxRecDepth 4096 in
theorem bitsVal_byteBits : ∀ n < 256, bitsVal (byteBits n) = n := by decide

theorem quintBits_bitsVal (a b c d e : Bool) :
    quintBits (bitsVal [a, b, c, d, e]) = [a, b, c, d, e] := by
  revert a b c d e; decide

theorem bitsVal_quint_lt (a b c d e : Bool) : bitsVal [a, b, c, d, e] < 32 := by
  revert a b c d e; decide

theorem bytesOfBits_bytesBits {bs : List Nat} (h : ByteOk bs) :
    bytesOfBits (bytesBits bs) = bs := by
  induction bs with
  | nil => rfl
  | cons x xs ih =>
    have hx : x < 256 := h x (List.mem_cons_self x xs)
    have hxs : ByteOk xs := fun y hy => h y (List.mem_cons_of_mem x hy)
    simp only [bytesBits, List.flatMap_cons, byteBits, List.cons_append, List.nil_append]
    show bitsVal [x.testBit 7, x.testBit 6, x.testBit 5, x.testBit 4,
      x.testBit 3, x.testBit 2, x.testBit 1, x.testBit 0] :: bytesOfBits (xs.flatMap byteBits) = x :: xs
    rw [show [x.testBit 7, x.testBit 6, x.testBit 5, x.testBit 4,
      x.testBit 3, x.testBit 2, x.testBit 1, x.testBit 0] = byteBits x from rfl]
    rw [bitsVal_byteBits x hx]
    exact congrArg (x :: ·) (ih hxs)

theorem bytesBits_length (bs : List Nat) : (bytesBits bs).length = 8 * bs.length := by
  induction bs with
  | nil => rfl
  | cons x xs ih =>
    simp only [bytesBits, List.flatMap_cons, List.length_append] at *
    simp [byteBits, ih]
    omega

theorem fromQuintVals_toQuintVals (l : List Bool) :
    fromQuintVals (toQuintVals l) = l ++ List.replicate ((5 - l.length % 5) % 5) false ∧
    (toQuintVals l).length * 5 = l.length + (5 - l.length % 5) % 5 := by
  induction l using toQuintVals.induct with
  | case1 b4 b3 b2 b1 b0 rest ih =>
    obtain ⟨ih1, ih2⟩ := ih
    constructor
    · simp only [toQuintVals, fromQuintVals, List.flatMap_cons] at *
      rw [quintBits_bitsVal, ih1]
      simp only [List.length_cons]
      have : (rest.length + 1 + 1 + 1 + 1 + 1) % 5 = rest.length % 5 := by omega
      rw [this]
      simp
    · simp only [toQuintVals, List.length_cons] at *
      omega
  | case2 => exact ⟨rfl, rfl⟩
  | case3 a => exact ⟨by simp [toQuintVals, fromQuintVals, quintBits_bitsVal], rfl⟩
  | case4 a b => exact ⟨by simp [toQuintVals, fromQuintVals, quintBits_bitsVal], rfl⟩
  | case5 a b c => exact ⟨by simp [toQuintVals, fromQuintVals, quintBits_bitsVal], rfl⟩
  | case6 a b c d => exact ⟨by simp [toQuintVals, fromQuintVals, quintBits_bitsVal], rfl⟩

theorem toQuintVals_lt (l : List Bool) : ∀ v ∈ toQuintVals l, v < 32 := by
  induction l using toQuintVals.induct with
  | case1 b4 b3 b2 b1 b0 rest ih =>
    intro v hv
    rcases List.mem_cons.mp hv with h | h
    · subst h; exact bitsVal_quint_lt _ _ _ _ _
    · exact ih v h
  | case2 => intro v hv; cases hv
  | case3 a => intro v hv; rcases List.mem_singleton.mp hv with rfl; exact bitsVal_quint_lt _ _ _ _ _
  | case4 a b => intro v hv; rcases List.mem_singleton.mp hv with rfl; exact bitsVal_quint_lt _ _ _ _ _
  | case5 a b c => intro v hv; rcases List.mem_singleton.mp hv with rfl; exact bitsVal_quint_lt _ _ _ _ _
  | case6 a b c d => intro v hv; rcases List.mem_singleton.mp hv with rfl; exact bitsVal_quint_lt _ _ _ _ _

theorem idx32_chr32 : ∀ v < 32, idx32 (chr32 v) = some v := by decide

theorem chr32_ne_pad : ∀ v < 32, chr32 v ≠ '=' := by decide

theorem mapM_map_of_inverse {α β : Type} {f : α → β} {g : β → Option α} (l : List α)
    (h : ∀ x ∈ l, g (f x) = some x) : (l.map f).mapM g = some l := by
  induction l with
  | nil => rfl
  | cons x xs ih =>
    simp only [List.map_cons, List.mapM_cons, h x (List.mem_cons_self x xs),
      ih fun y hy => h y (List.mem_cons_of_mem x hy)]
    rfl

theorem stripPad_of_no_pad {cs : List Char} (h : ∀ c ∈ cs, c ≠ '=') : stripPad cs = cs := by
  unfold stripPad
  cases hrev : cs.reverse with
  | nil =>
    have hnil : cs = [] := List.reverse_eq_nil_iff.mp hrev
    subst hnil; rfl
  | cons x xs =>
    have hx : x ∈ cs := by
      rw [← List.mem_reverse, hrev]; exact List.mem_cons_self x xs
    rw [List.dropWhile_cons, if_neg (by simp [h x hx])]
    rw [← hrev, List.reverse_reverse]

theorem b32decode_b32encode {bs : List Nat} (h : ByteOk bs) :
    b32decode (b32encode bs) = some bs := by
  unfold b32encode b32decode
  have hnopad : ∀ c ∈ (toQuintVals (bytesBits bs)).map chr32, c ≠ '=' := by
    intro c hc
    obtain ⟨v, hv, rfl⟩ := List.mem_map.mp hc
    exact chr32_ne_pad v (toQuintVals_lt _ v hv)
  rw [stripPad_of_no_pad hnopad]
  rw [mapM_map_of_inverse _ fun v hv => idx32_chr32 v (toQuintVals_lt _ v hv)]
  obtain ⟨hbits, hlen⟩ := fromQuintVals_toQuintVals (bytesBits bs)
  simp only
  set L := (bytesBits bs).length with hL
  set p := (5 - L % 5) % 5 with hp
  have hp4 : p < 5 := by omega
  have h8 : L = 8 * bs.length := bytesBits_length bs
  have hmod : (toQuintVals (bytesBits bs)).length * 5 % 8 = p := by omega
  have hdiv : (toQuintVals (bytesBits bs)).length * 5 / 8 * 8 = L := by omega
  rw [hbits, hmod, hdiv]
  rw [if_neg (by omega)]
  rw [List.take_left' rfl, List.drop_left' rfl]
  rw [if_neg (by simp)]
  rw [bytesOfBits_bytesBits h]

/-! ## Positional-digit lemmas -/

theorem digitsLEAux_zero (b : Nat) : ∀ f, digitsLEAux b f 0 = [] := by
  intro f; cases f <;> simp [digitsLEAux]

theorem digitsLEAux_stable (b : Nat) (hb : 2 ≤ b) :
    ∀ f1 f2 n, n ≤ f1 → n ≤ f2 → digitsLEAux b f1 n = digitsLEAux b f2 n := by
  intro f1
  induction f1 with
  | zero =>
    intro f2 n h1 _
    have : n = 0 := Nat.le_zero.mp h1
    subst this
    rw [digitsLEAux_zero, digitsLEAux_zero]
  | succ f1 ih =>
    intro f2 n h1 h2
    by_cases hn : n = 0
    · subst hn; rw [digitsLEAux_zero, digitsLEAux_zero]
    · have hf2 : ∃ f2p, f2 = f2p + 1 := by
        cases f2 with
        | zero => exact absurd (Nat.le_zero.mp h2) hn
        | succ m => exact ⟨m, rfl⟩
      obtain ⟨f2p, rfl⟩ := hf2
      simp only [digitsLEAux, if_neg hn]
      have hdivlt : n / b < n := Nat.div_lt_self (Nat.pos_of_ne_zero hn) (by omega)
      rw [ih f2p (n / b) (by omega) (by omega)]

theorem digitsLE_zero (b : Nat) : digitsLE b 0 = [] := rfl

theorem digitsLE_of_ne_zero {b n : Nat} (hb : 2 ≤ b) (hn : n ≠ 0) :
    digitsLE b n = n % b :: digitsLE b (n / b) := by
  unfold digitsLE
  obtain ⟨m, rfl⟩ : ∃ m, n = m + 1 := ⟨n - 1, by omega⟩
  simp only [digitsLEAux, if_neg hn]
  have hdivlt : (m + 1) / b < m + 1 := Nat.div_lt_self (by omega) (by omega)
  rw [digitsLEAux_stable b hb m ((m + 1) / b) ((m + 1) / b) (by omega) (by omega)]

theorem digitsLE_lt {b : Nat} (hb : 2 ≤ b) : ∀ n, ∀ d ∈ digitsLE b n, d < b := by
  intro n
  induction n using Nat.strong_induction_on with
  | _ n ih =>
    intro d hd
    by_cases hn : n = 0
    · subst hn; rw [digitsLE_zero] at hd; cases hd
    · rw [digitsLE_of_ne_zero hb hn] at hd
      rcases List.mem_cons.mp hd with h | h
      · subst h; exact Nat.mod_lt n (by omega)
      · exact ih (n / b) (Nat.div_lt_self (Nat.pos_of_ne_zero hn) (by omega)) d h

theorem digitsLE_ne_nil {b n : Nat} (hb : 2 ≤ b) (hn : n ≠ 0) : digitsLE b n ≠ [] := by
  rw [digitsLE_of_ne_zero hb hn]; exact List.cons_ne_nil _ _

theorem digitsLE_getLast_ne_zero {b : Nat} (hb : 2 ≤ b) :
    ∀ n, n ≠ 0 → (digitsLE b n).getLast? ≠ some 0 := by
  intro n
  induction n using Nat.strong_induction_on with
  | _ n ih =>
    intro hn
    rw [digitsLE_of_ne_zero hb hn]
    by_cases hq : n / b = 0
    · rw [hq, digitsLE_zero]
      have : n % b = n := Nat.mod_eq_of_lt (by
        have := Nat.div_eq_zero_iff (by omega : 0 < b) |>.mp hq
        omega)
      simp [this, hn]
    · cases hlist : digitsLE b (n / b) with
      | nil => exact absurd hlist (digitsLE_ne_nil hb hq)
      | cons y ys =>
        rw [List.getLast?_cons_cons, ← hlist]
        exact ih (n / b) (Nat.div_lt_self (Nat.pos_of_ne_zero hn) (by omega)) hq

theorem beVal_foldl_acc (b : Nat) (l : List Nat) :
    ∀ acc, l.foldl (fun acc d => acc * b + d) acc = acc * b ^ l.length + beVal b l := by
  induction l with
  | nil => intro acc; simp [beVal]
  | cons d l ih =>
    intro acc
    simp only [List.foldl_cons, List.length_cons]
    rw [ih (acc * b + d)]
    have hd : beVal b (d :: l) = d * b ^ l.length + beVal b l := by
      show List.foldl (fun acc d => acc * b + d) (0 * b + d) l = d * b ^ l.length + beVal b l
      rw [Nat.zero_mul, Nat.zero_add]
      exact ih d
    rw [hd]; ring

theorem beVal_cons (b d : Nat) (l : List Nat) :
    beVal b (d :: l) = d * b ^ l.length + beVal b l := by
  unfold beVal
  simp only [List.foldl_cons]
  have := beVal_foldl_acc b l d
  simpa using this

theorem beVal_append (b : Nat) (l1 l2 : List Nat) :
    beVal b (l1 ++ l2) = beVal b l1 * b ^ l2.length + beVal b l2 := by
  unfold beVal
  rw [List.foldl_append]
  exact beVal_foldl_acc b l2 _

theorem beVal_replicate_zero (b z : Nat) (l : List Nat) :
    beVal b (List.replicate z 0 ++ l) = beVal b l := by
  induction z with
  | zero => simp
  | succ z ih =>
    rw [List.replicate_succ, List.cons_append, beVal_cons, ih]
    simp

theorem beVal_lt (b : Nat) (l : List Nat) (h : ∀ d ∈ l, d < b) :
    beVal b l < b ^ l.length := by
  induction l with
  | nil => simp [beVal]
  | cons d l ih =>
    rw [beVal_cons, List.length_cons, pow_succ]
    have hd : d < b := h d (List.mem_cons_self d l)
    have hl := ih fun x hx => h x (List.mem_cons_of_mem d hx)
    calc d * b ^ l.length + beVal b l < d * b ^ l.length + b ^ l.length := by omega
    _ = (d + 1) * b ^ l.length := by ring
    _ ≤ b * b ^ l.length := Nat.mul_le_mul_right _ (by omega)
    _ = b ^ l.length * b := by ring

theorem beVal_pos_of_head_ne_zero (b x : Nat) (xs : List Nat) (hx : x ≠ 0) (hb : 1 ≤ b) :
    0 < beVal b (x :: xs) := by
  rw [beVal_cons]
  have : 0 < x * b ^ xs.length := Nat.mul_pos (Nat.pos_of_ne_zero hx) (by positivity)
  omega

theorem beVal_digitsLE_reverse {b : Nat} (hb : 2 ≤ b) :
    ∀ n, beVal b (digitsLE b n).reverse = n := by
  intro n
  induction n using Nat.strong_induction_on with
  | _ n ih =>
    by_cases hn : n = 0
    · subst hn; rfl
    · rw [digitsLE_of_ne_zero hb hn, List.reverse_cons, beVal_append]
      rw [ih (n / b) (Nat.div_lt_self (Nat.pos_of_ne_zero hn) (by omega))]
      show n / b * b ^ [n % b].length + beVal b [n % b] = n
      have : beVal b [n % b] = n % b := by simp [beVal]
      rw [this, List.length_singleton, pow_one, Nat.mul_comm]
      exact Nat.div_add_mod n b

theorem digitsLE_beVal_reverse {b : Nat} (hb : 2 ≤ b) :
    ∀ m : List Nat, (∀ d ∈ m, d < b) → m.getLast? ≠ some 0 →
    digitsLE b (beVal b m.reverse) = m := by
  intro m
  induction m with
  | nil => intro _ _; rfl
  | cons d m ih =>
    intro hlt hlast
    rw [List.reverse_cons, beVal_append]
    have hval : beVal b [d] = d := by simp [beVal]
    rw [hval, List.length_singleton, pow_one]
    cases m with
    | nil =>
      have hd0 : d ≠ 0 := by simpa using hlast
      have hdb : d < b := hlt d (List.mem_cons_self d [])
      have : beVal b ([] : List Nat).reverse = 0 := rfl
      rw [List.reverse_nil] at *
      show digitsLE b (beVal b ([] : List Nat) * b + d) = [d]
      have hz : beVal b ([] : List Nat) = 0 := rfl
      rw [hz, Nat.zero_mul, Nat.zero_add]
      rw [digitsLE_of_ne_zero hb hd0, Nat.mod_eq_of_lt hdb, Nat.div_eq_of_lt hdb, digitsLE_zero]
    | cons y ys =>
      have hlast2 : (y :: ys).getLast? ≠ some 0 := by
        rwa [List.getLast?_cons_cons] at hlast
      have ih2 := ih (fun x hx => hlt x (List.mem_cons_of_mem d hx)) hlast2
      set R := beVal b (y :: ys).reverse with hR
      have hRpos : 0 < R := by
        rw [hR]
        cases hrev : (y :: ys).reverse with
        | nil => exact absurd hrev (by simp)
        | cons t ts =>
          have ht : t ≠ 0 := by
            have : (y :: ys).getLast? = some t := by
              rw [← List.head?_reverse]
              rw [hrev]
              rfl
            intro h0
            exact hlast2 (by rw [this, h0])
          exact beVal_pos_of_head_ne_zero b t ts ht (by omega)
      have hdb : d < b := hlt d (List.mem_cons_self d _)
      have hne : R * b + d ≠ 0 := by
        have : b ≤ R * b := Nat.le_mul_of_pos_left b hRpos
        omega
      rw [digitsLE_of_ne_zero hb hne]
      have hmod : (R * b + d) % b = d := by
        rw [Nat.add_comm, Nat.add_mul_mod_self_right, Nat.mod_eq_of_lt hdb]
      have hdiv : (R * b + d) / b = R := by
        rw [Nat.add_comm, Nat.add_mul_div_right d R (by omega : 0 < b), Nat.div_eq_of_lt hdb]
        omega
      rw [hmod, hdiv, ih2]

/-! ## Base58btc round-trip -/

set_option maxRecDepth 8192 in
theorem idx58_chr58 : ∀ v < 58, idx58 (chr58 v) = some v := by decide

theorem chr58_zero : chr58 0 = '1' := rfl

theorem leadZeros_replicate_append (z : Nat) (l : List Nat) :
    leadZeros (List.replicate z 0 ++ l) = z + leadZeros l := by
  induction z with
  | zero => simp
  | succ z ih => rw [List.replicate_succ, List.cons_append]; simp [leadZeros, ih]; omega

theorem leadZeros_cons_ne_zero {x : Nat} (xs : List Nat) (hx : x ≠ 0) :
    leadZeros (x :: xs) = 0 := by
  simp [leadZeros, hx]

theorem leadZeros_decomp : ∀ l : List Nat,
    ∃ rest, l = List.replicate (leadZeros l) 0 ++ rest ∧
      (rest = [] ∨ ∃ x xs, rest = x :: xs ∧ x ≠ 0) := by
  intro l
  induction l with
  | nil => exact ⟨[], rfl, Or.inl rfl⟩
  | cons x xs ih =>
    by_cases hx : x = 0
    · subst hx
      obtain ⟨rest, heq, hrest⟩ := ih
      refine ⟨rest, ?_, hrest⟩
      rw [show leadZeros (0 :: xs) = leadZeros xs + 1 by simp [leadZeros]]
      rw [List.replicate_succ, List.cons_append, ← heq]
    · exact ⟨x :: xs, by rw [leadZeros_cons_ne_zero xs hx]; rfl, Or.inr ⟨x, xs, rfl, hx⟩⟩

theorem b58decode_b58encode {bs : List Nat} (h : ByteOk bs) :
    b58decode (b58encode bs) = some bs := by
  unfold b58encode b58decode
  set z := leadZeros bs with hz
  set N := beVal 256 bs with hN
  set D := (digitsLE 58 N).reverse with hD
  have hDlt : ∀ d ∈ D, d < 58 := by
    intro d hd
    exact digitsLE_lt (by omega) N d (List.mem_reverse.mp hd)
  have henc : List.replicate z '1' ++ D.map chr58 = (List.replicate z 0 ++ D).map chr58 := by
    rw [List.map_append, List.map_replicate, chr58_zero]
  rw [henc]
  rw [mapM_map_of_inverse _ (by
    intro v hv
    rcases List.mem_append.mp hv with hv | hv
    · have : v = 0 := List.eq_of_mem_replicate hv
      subst this
      exact idx58_chr58 0 (by omega)
    · exact idx58_chr58 v (hDlt v hv))]
  simp only
  have hlzD : leadZeros D = 0 ∨ D = [] := by
    by_cases hN0 : N = 0
    · right; rw [hD, hN0, digitsLE_zero, List.reverse_nil]
    · left
      cases hrev : D with
      | nil => simp [leadZeros]
      | cons t ts =>
        have ht : (digitsLE 58 N).getLast? = some t := by
          rw [← List.head?_reverse, ← hD, hrev]; rfl
        have : t ≠ 0 := by
          intro h0
          exact digitsLE_getLast_ne_zero (b := 58) (by omega) N hN0 (by rw [ht, h0])
        exact leadZeros_cons_ne_zero ts this
  have hvalD : beVal 58 (List.replicate z 0 ++ D) = N := by
    rw [beVal_replicate_zero, hD, beVal_digitsLE_reverse (by omega)]
  obtain ⟨rest, hsplit, hrest⟩ := leadZeros_decomp bs
  have hNrest : N = beVal 256 rest := by
    rw [hN]
    conv_lhs => rw [hsplit]
    rw [beVal_replicate_zero]
  have hdig : (digitsLE 256 N).reverse = rest := by
    rcases hrest with hnil | ⟨x, xs, hxxs, hxne⟩
    · subst hnil
      have : N = 0 := by rw [hNrest]; rfl
      rw [this, digitsLE_zero, List.reverse_nil]
    · subst hxxs
      have hrl : ∀ d ∈ (x :: xs).reverse, d < 256 := by
        intro d hd
        rw [List.mem_reverse] at hd
        refine h d ?_
        rw [hsplit]
        exact List.mem_append_right _ hd
      have hlast : ((x :: xs).reverse).getLast? ≠ some 0 := by
        rw [List.getLast?_reverse]
        simp [hxne]
      have := digitsLE_beVal_reverse (b := 256) (by omega) (x :: xs).reverse hrl hlast
      rw [List.reverse_reverse] at this
      rw [hNrest, this, List.reverse_reverse]
  have hlz : leadZeros (List.replicate z 0 ++ D) = z := by
    rcases hlzD with h0 | hDnil
    · rw [leadZeros_replicate_append, h0]; omega
    · rw [hDnil, leadZeros_replicate_append]; simp [leadZeros]
  rw [hvalD, hdig, hlz, ← hsplit]

theorem digitsLE_getLast_of_bounds {b : Nat} (hb : 2 ≤ b) :
    ∀ k n, b ^ k ≤ n → n < b ^ (k + 1) → (digitsLE b n).getLast? = some (n / b ^ k) := by
  intro k
  induction k with
  | zero =>
    intro n h1 h2
    rw [pow_zero] at h1
    rw [pow_one] at h2
    have hn : n ≠ 0 := by omega
    rw [digitsLE_of_ne_zero hb hn, Nat.mod_eq_of_lt h2, Nat.div_eq_of_lt h2, digitsLE_zero]
    simp
  | succ k ih =>
    intro n h1 h2
    have hbpos : 0 < b := by omega
    have hn : n ≠ 0 := by
      have : 0 < b ^ (k + 1) := Nat.pos_pow_of_pos _ hbpos
      omega
    have hlow : b ^ k ≤ n / b := by
      rw [Nat.le_div_iff_mul_le hbpos]
      calc b ^ k * b = b ^ (k + 1) := (pow_succ b k).symm
      _ ≤ n := h1
    have hhigh : n / b < b ^ (k + 1) := by
      rw [Nat.div_lt_iff_lt_mul hbpos]
      calc n < b ^ (k + 1 + 1) := h2
      _ = b ^ (k + 1) * b := pow_succ b (k + 1)
    have hrec := ih (n / b) hlow hhigh
    rw [digitsLE_of_ne_zero hb hn]
    have hq : n / b ≠ 0 := by
      have : 0 < b ^ k := Nat.pos_pow_of_pos _ hbpos
      omega
    cases hlist : digitsLE b (n / b) with
    | nil => exact absurd hlist (digitsLE_ne_nil hb hq)
    | cons y ys =>
      rw [List.getLast?_cons_cons, ← hlist, hrec, Nat.div_div_eq_div_mul]
      rw [show b * b ^ k = b ^ (k + 1) by rw [pow_succ]; ring]

theorem b58encode_head_Q {d : List Nat} (hlen : d.length = 32) (hok : ByteOk d) :
    ∃ tail, b58encode (18 :: 32 :: d) = 'Q' :: tail := by
  unfold b58encode
  rw [leadZeros_cons_ne_zero _ (by omega), List.replicate_zero, List.nil_append]
  set N := beVal 256 (18 :: 32 :: d) with hN
  have hNval : N = 4640 * 256 ^ 32 + beVal 256 d := by
    rw [hN, beVal_cons, beVal_cons, hlen]
    simp only [List.length_cons, hlen]
    rw [show (256 : Nat) ^ (32 + 1) = 256 * 256 ^ 32 by rw [pow_succ]; ring]
    ring
  have hdlt : beVal 256 d < 256 ^ 32 := by
    have := beVal_lt 256 d hok
    rwa [hlen] at this
  have hlow : (58 : Nat) ^ 45 ≤ N := by
    rw [hNval]
    have : (58 : Nat) ^ 45 ≤ 4640 * 256 ^ 32 := by norm_num
    omega
  have hhigh : N < 58 ^ (45 + 1) := by
    rw [hNval]
    have : 4641 * 256 ^ 32 ≤ 58 ^ 46 := by norm_num
    omega
  have hlast := digitsLE_getLast_of_bounds (b := 58) (by omega) 45 N hlow hhigh
  have hq23 : N / 58 ^ 45 = 23 := by
    have h1 : (4640 * 256 ^ 32) / 58 ^ 45 ≤ N / 58 ^ 45 :=
      Nat.div_le_div_right (by omega)
    have h2 : N / 58 ^ 45 ≤ (4641 * 256 ^ 32 - 1) / 58 ^ 45 :=
      Nat.div_le_div_right (by omega)
    have e1 : (4640 * 256 ^ 32) / 58 ^ 45 = 23 := by norm_num
    have e2 : (4641 * 256 ^ 32 - 1) / 58 ^ 45 = 23 := by norm_num
    omega
  rw [hq23] at hlast
  cases hrev : (digitsLE 58 N).reverse with
  | nil =>
    rw [← List.head?_reverse] at hlast
    rw [hrev] at hlast
    cases hlast
  | cons t ts =>
    have : (digitsLE 58 N).getLast? = some t := by
      rw [← List.head?_reverse, hrev]; rfl
    have ht : t = 23 := by
      rw [this] at hlast
      exact Option.some_inj.mp hlast
    subst ht
    exact ⟨ts.map chr58, rfl⟩

/-! ## Varint round-trip -/

theorem varintEncAux_stable :
    ∀ f1 f2 n, n ≤ f1 → n ≤ f2 → varintEncAux f1 n = varintEncAux f2 n := by
  intro f1
  induction f1 with
  | zero =>
    intro f2 n h1 _
    have hn : n = 0 := Nat.le_zero.mp h1
    subst hn
    cases f2 with
    | zero => rfl
    | succ m => simp [varintEncAux]
  | succ f1 ih =>
    intro f2 n h1 h2
    by_cases hs : n < 128
    · cases f2 with
      | zero =>
        have hn : n = 0 := Nat.le_zero.mp h2
        subst hn; simp [varintEncAux]
      | succ m => simp [varintEncAux, hs]
    · have hf2 : ∃ m, f2 = m + 1 := by
        cases f2 with
        | zero => omega
        | succ m => exact ⟨m, rfl⟩
      obtain ⟨m, rfl⟩ := hf2
      simp only [varintEncAux, if_neg hs]
      have hlt : n / 128 < n := Nat.div_lt_self (by omega) (by omega)
      rw [ih m (n / 128) (by omega) (by omega)]

theorem varintEnc_small {n : Nat} (h : n < 128) : varintEnc n = [n] := by
  unfold varintEnc
  cases hn : n with
  | zero => rfl
  | succ m => rw [← hn]; rw [show n = (n - 1) + 1 by omega]; simp [varintEncAux]; omega

theorem varintEnc_large {n : Nat} (h : 128 ≤ n) :
    varintEnc n = (n % 128 + 128) :: varintEnc (n / 128) := by
  unfold varintEnc
  obtain ⟨m, rfl⟩ : ∃ m, n = m + 1 := ⟨n - 1, by omega⟩
  simp only [varintEncAux, if_neg (by omega : ¬ m + 1 < 128)]
  have hlt : (m + 1) / 128 < m + 1 := Nat.div_lt_self (by omega) (by omega)
  rw [varintEncAux_stable m ((m + 1) / 128) ((m + 1) / 128) (by omega) (by omega)]

theorem varintEnc_byteOk (n : Nat) : ∀ x ∈ varintEnc n, x < 256 := by
  induction n using Nat.strong_induction_on with
  | _ n ih =>
    intro x hx
    by_cases hs : n < 128
    · rw [varintEnc_small hs] at hx
      rcases List.mem_singleton.mp hx with rfl
      omega
    · rw [varintEnc_large (by omega)] at hx
      rcases List.mem_cons.mp hx with rfl | hmem
      · have := Nat.mod_lt n (show 0 < 128 by omega)
        omega
      · exact ih (n / 128) (Nat.div_lt_self (by omega) (by omega)) x hmem

theorem varintDecAux_enc :
    ∀ a n rest, 1 ≤ a → n < 128 ^ a → varintDecAux a (varintEnc n ++ rest) = some (n, rest) := by
  intro a
  induction a with
  | zero => intro n rest ha _; omega
  | succ a ih =>
    intro n rest _ h
    by_cases hs : n < 128
    · rw [varintEnc_small hs]
      simp [varintDecAux, hs]
    · rw [varintEnc_large (by omega)]
      have ha : 1 ≤ a := by
        by_contra hc
        have : a = 0 := by omega
        subst this
        rw [pow_one] at h
        omega
      have hdiv : n / 128 < 128 ^ a := by
        rw [Nat.div_lt_iff_lt_mul (by omega : 0 < 128)]
        calc n < 128 ^ (a + 1) := h
        _ = 128 ^ a * 128 := pow_succ 128 a
      simp only [List.cons_append, varintDecAux, if_neg (by omega : ¬ n % 128 + 128 < 128),
        List.append_eq]
      rw [ih (n / 128) rest ha hdiv]
      simp only
      have : (n % 128 + 128) % 128 + 128 * (n / 128) = n := by omega
      rw [this]

theorem varintDec_enc {n : Nat} (h : n < 72057594037927936) (rest : List Nat) :
    varintDec (varintEnc n ++ rest) = some (n, rest) :=
  varintDecAux_enc 8 n rest (by omega) (by norm_num at *; omega)

/-! ## CID lemmas -/

theorem cidCreateV1_bytes (codec code : Nat) (digest : List Nat) :
    (cidCreateV1 codec code digest).bytes
      = varintEnc 1 ++ (varintEnc codec ++ (varintEnc code ++ (varintEnc digest.length ++ digest))) := by
  simp [cidCreateV1, digestBytes]

theorem cidDecode_create {codec code : Nat} {digest : List Nat}
    (h1 : codec < 72057594037927936) (h2 : code < 72057594037927936)
    (h3 : digest.length < 72057594037927936) :
    cidDecode (cidCreateV1 codec code digest).bytes = some (cidCreateV1 codec code digest) := by
  rw [cidCreateV1_bytes]
  unfold cidDecode
  simp only [varintDec_enc (show (1 : Nat) < 72057594037927936 by norm_num),
    varintDec_enc h1, varintDec_enc h2, varintDec_enc h3]
  norm_num [cidCreateV1, digestBytes]

theorem cidCreateV1_byteOk {codec code : Nat} {digest : List Nat} (h : ByteOk digest) :
    ByteOk (cidCreateV1 codec code digest).bytes := by
  intro x hx
  simp only [cidCreateV1, digestBytes, List.append_assoc, List.mem_append] at hx
  rcases hx with hx | hx | hx | hx | hx
  · exact varintEnc_byteOk 1 x hx
  · exact varintEnc_byteOk codec x hx
  · exact varintEnc_byteOk code x hx
  · exact varintEnc_byteOk digest.length x hx
  · exact h x hx

theorem cidOk_create {codec code : Nat} {digest : List Nat}
    (h1 : codec < 72057594037927936) (h2 : code < 72057594037927936)
    (h3 : digest.length < 72057594037927936) (h4 : ByteOk digest) :
    CidOk (cidCreateV1 codec code digest) :=
  ⟨cidDecode_create h1 h2 h3, cidCreateV1_byteOk h4⟩

theorem cidParse_mk_b (r : List Char) :
    cidParse (String.mk ('b' :: r))
      = (match b32decode r with
         | none => none
         | some bs =>
           match cidDecode bs with
           | none => none
           | some c => if c.version = 0 then none else some c) := rfl

theorem cidParse_mk_Q (r : List Char) :
    cidParse (String.mk ('Q' :: r))
      = (match b58decode ('Q' :: r) with
         | none => none
         | some bs => cidDecode bs) := rfl

theorem cidParse_toString_good {c : Cid} (h : CidGood c) :
    cidParse (cidToString c) = some c := by
  obtain ⟨⟨hdec, hbytes⟩, hver⟩ := h
  rcases hver with hv1 | ⟨hv0, hdlen, hshape⟩
  · rw [cidToString, if_neg (by omega)]
    rw [cidParse_mk_b, b32decode_b32encode hbytes]
    simp only
    rw [hdec]
    simp only
    rw [if_neg (by omega)]
  · rw [cidToString, if_pos hv0]
    have hdok : ByteOk c.mhDigest := by
      intro x hx
      refine hbytes x ?_
      rw [hshape]
      exact List.mem_cons_of_mem _ (List.mem_cons_of_mem _ hx)
    obtain ⟨tail, htail⟩ := b58encode_head_Q hdlen hdok
    rw [← hshape] at htail
    rw [htail, cidParse_mk_Q, ← htail, b58decode_b58encode hbytes]
    simp only
    rw [hdec]

/-- Two valid identifiers with the same canonical serialization are the same
identifier. -/
theorem cidToString_inj_good {c1 c2 : Cid} (h1 : CidGood c1) (h2 : CidGood c2)
    (heq : cidToString c1 = cidToString c2) : c1 = c2 := by
  have e1 := cidParse_toString_good h1
  have e2 := cidParse_toString_good h2
  rw [heq] at e1
  rw [e2] at e1
  exact (Option.some_inj.mp e1).symm

/-! ## SHA-256 output shape -/

theorem exists_eight {s : List Nat} (h : s.length = 8) :
    ∃ a b c d e f g k, s = [a, b, c, d, e, f, g, k] := by
  rcases s with _ | ⟨a, _ | ⟨b, _ | ⟨c, _ | ⟨d, _ | ⟨e, _ | ⟨f, _ | ⟨g, _ | ⟨k, _ | ⟨x, t⟩⟩⟩⟩⟩⟩⟩⟩⟩ <;>
    simp only [List.length_cons, List.length_nil] at h <;>
    first
    | exact ⟨_, _, _, _, _, _, _, _, rfl⟩
    | omega

theorem rounds_length : ∀ (ps : List (Nat × Nat)) (s : List Nat),
    s.length = 8 → (rounds ps s).length = 8 := by
  intro ps
  induction ps with
  | nil =>
    intro s h
    obtain ⟨a, b, c, d, e, f, g, k, rfl⟩ := exists_eight h
    rfl
  | cons p rest ih =>
    intro s h
    obtain ⟨a, b, c, d, e, f, g, k, rfl⟩ := exists_eight h
    obtain ⟨kk, ww⟩ := p
    show (rounds rest _).length = 8
    exact ih _ rfl

theorem compressBlock_length {h block : List Nat} (hl : h.length = 8) :
    (compressBlock h block).length = 8 := by
  unfold compressBlock
  rw [List.length_map, List.length_zip, hl, rounds_length _ h hl]
  exact Nat.min_self 8

theorem foldl_compress_length : ∀ (blocks : List (List Nat)) (h : List Nat),
    h.length = 8 → (blocks.foldl compressBlock h).length = 8 := by
  intro blocks
  induction blocks with
  | nil => intro h hl; exact hl
  | cons b rest ih => intro h hl; exact ih _ (compressBlock_length hl)

theorem flatMap_wordBytes_length : ∀ l : List Nat, (l.flatMap wordBytes).length = 4 * l.length := by
  intro l
  induction l with
  | nil => rfl
  | cons w rest ih =>
    simp only [List.flatMap_cons, List.length_append, ih, List.length_cons]
    simp [wordBytes]
    omega

theorem sha256Bytes_length (m : List Nat) : (sha256Bytes m).length = 32 := by
  unfold sha256Bytes
  have h8 : shaH0.length = 8 := rfl
  rw [flatMap_wordBytes_length, foldl_compress_length _ _ h8]

theorem sha256Bytes_byteOk (m : List Nat) : ByteOk (sha256Bytes m) := by
  intro x hx
  unfold sha256Bytes at hx
  obtain ⟨w, _, hxw⟩ := List.mem_flatMap.mp hx
  have hand : ∀ y z : Nat, y &&& 255 < 256 := by
    intro y z
    have := Nat.and_le_right (n := y) (m := 255)
    omega
  simp only [wordBytes, List.mem_cons, List.not_mem_nil, or_false] at hxw
  rcases hxw with rfl | rfl | rfl | rfl
  · exact hand _ 0
  · exact hand _ 0
  · exact hand _ 0
  · exact hand _ 0

/-! ## Derived key shape -/

theorem pubsubTopicToDhtKeyCid_good (t : String) : CidGood (pubsubTopicToDhtKeyCid t) := by
  refine ⟨cidOk_create (by norm_num) (by norm_num) ?_ ?_, Or.inl rfl⟩
  · rw [sha256Bytes_length]; norm_num
  · exact sha256Bytes_byteOk _

theorem varintEnc_one : varintEnc 1 = [1] := rfl

theorem derive_eq_specStr (t : String) :
    cidToString (pubsubTopicToDhtKeyCid t) = deriveSpecStr t := by
  unfold pubsubTopicToDhtKeyCid deriveSpecStr
  rw [cidToString, if_neg (by simp [cidCreateV1])]
  rw [cidCreateV1_bytes]
  have hlen : (sha256Bytes (utf8Bytes ("floodsub:" ++ t))).length = 32 := sha256Bytes_length _
  rw [hlen]
  rw [show varintEnc 1 = [1] from rfl, show varintEnc 0x55 = [0x55] from rfl,
    show varintEnc 0x12 = [0x12] from rfl, show varintEnc 32 = [32] from rfl]
  simp

end DelegatedRouting

namespace DelegatedRouting

/-! ## JS Map lemmas -/

theorem mapGet_set_self (m : DirMap) (k : String) (v : DirEntry) :
    mapGet (mapSet m k v) k = some v := by
  induction m with
  | nil => simp [mapSet, mapGet]
  | cons p rest ih =>
    obtain ⟨k1, v1⟩ := p
    by_cases h : k1 = k
    · subst h; simp [mapSet, mapGet]
    · simp [mapSet, mapGet, h, ih]

theorem mapGet_set_ne (m : DirMap) (k : String) (v : DirEntry) (k2 : String) (h : k2 ≠ k) :
    mapGet (mapSet m k v) k2 = mapGet m k2 := by
  have hne : ¬ k = k2 := fun he => h he.symm
  induction m with
  | nil => simp [mapSet, mapGet, hne]
  | cons p rest ih =>
    obtain ⟨k1, v1⟩ := p
    by_cases h1 : k1 = k
    · subst h1
      simp [mapSet, mapGet, hne]
    · simp [mapSet, mapGet, h1, ih]

theorem mapGet_delete_ne (m : DirMap) (k k2 : String) (h : k2 ≠ k) :
    mapGet (mapDelete m k) k2 = mapGet m k2 := by
  have hne : ¬ k = k2 := fun he => h he.symm
  induction m with
  | nil => rfl
  | cons p rest ih =>
    obtain ⟨k1, v1⟩ := p
    by_cases h1 : k1 = k
    · subst h1
      simp [mapDelete, mapGet, hne]
    · simp [mapDelete, mapGet, h1, ih]

theorem mapGet_none_of_not_mem (m : DirMap) (k : String) (h : k ∉ mapKeys m) :
    mapGet m k = none := by
  induction m with
  | nil => rfl
  | cons p rest ih =>
    obtain ⟨k1, v1⟩ := p
    have h1 : ¬ k1 = k := by
      intro he
      exact h (by simp [mapKeys, he])
    have h2 : k ∉ mapKeys rest := by
      intro hm
      refine h ?_
      simp only [mapKeys, List.map_cons, List.mem_cons]
      exact Or.inr hm
    simp only [mapGet, if_neg h1]
    exact ih h2

theorem mapWf_cons_elim {k1 : String} {v1 : DirEntry} {rest : DirMap}
    (h : MapWf ((k1, v1) :: rest)) : k1 ∉ mapKeys rest ∧ MapWf rest := by
  unfold MapWf mapKeys at h
  simp only [List.map_cons, List.nodup_cons] at h
  exact h

theorem mapGet_delete_self (m : DirMap) (k : String) (h : MapWf m) :
    mapGet (mapDelete m k) k = none := by
  induction m with
  | nil => rfl
  | cons p rest ih =>
    obtain ⟨k1, v1⟩ := p
    obtain ⟨hnotin, hwf⟩ := mapWf_cons_elim h
    by_cases h1 : k1 = k
    · subst h1
      simp only [mapDelete, if_pos rfl]
      exact mapGet_none_of_not_mem rest k1 hnotin
    · simp only [mapDelete, if_neg h1, mapGet, if_neg h1]
      exact ih hwf

theorem mapKeys_cons (k1 : String) (v1 : DirEntry) (rest : DirMap) :
    mapKeys ((k1, v1) :: rest) = k1 :: mapKeys rest := rfl

theorem mem_mapKeys_set (m : DirMap) (k : String) (v : DirEntry) :
    ∀ x ∈ mapKeys (mapSet m k v), x = k ∨ x ∈ mapKeys m := by
  induction m with
  | nil =>
    intro x hx
    rw [show mapSet [] k v = [(k, v)] from rfl, mapKeys_cons] at hx
    rcases List.mem_cons.mp hx with h2 | h2
    · exact Or.inl h2
    · cases h2
  | cons p rest ih =>
    obtain ⟨k1, v1⟩ := p
    intro x hx
    by_cases h1 : k1 = k
    · rw [show mapSet ((k1, v1) :: rest) k v = (k, v) :: rest from by simp [mapSet, h1],
        mapKeys_cons] at hx
      rcases List.mem_cons.mp hx with h2 | h2
      · exact Or.inl h2
      · subst h1
        exact Or.inr (by rw [mapKeys_cons]; exact List.mem_cons_of_mem _ h2)
    · rw [show mapSet ((k1, v1) :: rest) k v = (k1, v1) :: mapSet rest k v from by
        simp [mapSet, h1], mapKeys_cons] at hx
      rcases List.mem_cons.mp hx with h2 | h2
      · exact Or.inr (by rw [mapKeys_cons]; exact h2 ▸ List.mem_cons_self _ _)
      · rcases ih x h2 with hl | hr
        · exact Or.inl hl
        · exact Or.inr (by rw [mapKeys_cons]; exact List.mem_cons_of_mem _ hr)

theorem mem_mapKeys_delete (m : DirMap) (k : String) :
    ∀ x ∈ mapKeys (mapDelete m k), x ∈ mapKeys m := by
  induction m with
  | nil => intro x hx; exact hx
  | cons p rest ih =>
    obtain ⟨k1, v1⟩ := p
    intro x hx
    by_cases h1 : k1 = k
    · rw [show mapDelete ((k1, v1) :: rest) k = rest from by simp [mapDelete, h1]] at hx
      rw [mapKeys_cons]
      exact List.mem_cons_of_mem _ hx
    · rw [show mapDelete ((k1, v1) :: rest) k = (k1, v1) :: mapDelete rest k from by
        simp [mapDelete, h1], mapKeys_cons] at hx
      rw [mapKeys_cons]
      rcases List.mem_cons.mp hx with h2 | h2
      · exact h2 ▸ List.mem_cons_self _ _
      · exact List.mem_cons_of_mem _ (ih x h2)

theorem mapWf_set (m : DirMap) (k : String) (v : DirEntry) (h : MapWf m) :
    MapWf (mapSet m k v) := by
  induction m with
  | nil => simp [mapSet, MapWf, mapKeys]
  | cons p rest ih =>
    obtain ⟨k1, v1⟩ := p
    obtain ⟨hnotin, hwf⟩ := mapWf_cons_elim h
    by_cases h1 : k1 = k
    · rw [show mapSet ((k1, v1) :: rest) k v = (k, v) :: rest from by simp [mapSet, h1]]
      unfold MapWf
      rw [mapKeys_cons]
      rw [List.nodup_cons]
      exact ⟨h1 ▸ hnotin, hwf⟩
    · rw [show mapSet ((k1, v1) :: rest) k v = (k1, v1) :: mapSet rest k v from by
        simp [mapSet, h1]]
      unfold MapWf
      rw [mapKeys_cons, List.nodup_cons]
      constructor
      · intro hmem
        rcases mem_mapKeys_set rest k v k1 hmem with h2 | hmem2
        · exact h1 h2
        · exact hnotin hmem2
      · exact ih hwf

theorem mapWf_delete (m : DirMap) (k : String) (h : MapWf m) :
    MapWf (mapDelete m k) := by
  induction m with
  | nil => exact h
  | cons p rest ih =>
    obtain ⟨k1, v1⟩ := p
    obtain ⟨hnotin, hwf⟩ := mapWf_cons_elim h
    by_cases h1 : k1 = k
    · rw [show mapDelete ((k1, v1) :: rest) k = rest from by simp [mapDelete, h1]]
      exact hwf
    · rw [show mapDelete ((k1, v1) :: rest) k = (k1, v1) :: mapDelete rest k from by
        simp [mapDelete, h1]]
      unfold MapWf
      rw [mapKeys_cons, List.nodup_cons]
      exact ⟨fun hmem => hnotin (mem_mapKeys_delete rest k k1 hmem), ih hwf⟩

theorem mem_mapKeys_of_get (m : DirMap) (k : String) (v : DirEntry)
    (h : mapGet m k = some v) : k ∈ mapKeys m := by
  induction m with
  | nil => cases h
  | cons p rest ih =>
    obtain ⟨k1, v1⟩ := p
    rw [mapKeys_cons]
    by_cases h1 : k1 = k
    · exact h1 ▸ List.mem_cons_self _ _
    · simp only [mapGet, if_neg h1] at h
      exact List.mem_cons_of_mem _ (ih h)

end DelegatedRouting

namespace DelegatedRouting

/-! ## Handler case lemmas -/

theorem handleRequest_not_lookup (req : Request) (st : ServerState) (now : Nat)
    (h : ¬ isLookupReq req) :
    handleRequest req st now = (HandlerOutcome.response 404 (Body.message "not found"), st) := by
  unfold handleRequest
  rw [if_neg h]

theorem handleRequest_thrown (req : Request) (st : ServerState) (now : Nat)
    (h : isLookupReq req) (hdec : decodeURIComp (cidPartOf req) = none) :
    handleRequest req st now
      = (HandlerOutcome.thrown, ⟨st.providersByCid, st.providerQueryCount + 1⟩) := by
  unfold handleRequest
  rw [if_pos h]
  simp only [hdec]

theorem handleRequest_invalid (req : Request) (st : ServerState) (now : Nat) (s : String)
    (h : isLookupReq req) (hdec : decodeURIComp (cidPartOf req) = some s)
    (hparse : cidParse s = none) :
    handleRequest req st now
      = (HandlerOutcome.response 422 (Body.providers []),
         ⟨st.providersByCid, st.providerQueryCount + 1⟩) := by
  unfold handleRequest
  rw [if_pos h]
  simp only [hdec, hparse]

theorem handleRequest_miss (req : Request) (st : ServerState) (now : Nat) (s : String) (c : Cid)
    (h : isLookupReq req) (hdec : decodeURIComp (cidPartOf req) = some s)
    (hparse : cidParse s = some c)
    (hget : mapGet st.providersByCid (cidToString c) = none) :
    handleRequest req st now
      = (HandlerOutcome.response 404 (Body.providers []),
         ⟨st.providersByCid, st.providerQueryCount + 1⟩) := by
  unfold handleRequest
  rw [if_pos h]
  simp only [hdec, hparse, hget]

theorem handleRequest_expired (req : Request) (st : ServerState) (now : Nat) (s : String)
    (c : Cid) (entry : DirEntry)
    (h : isLookupReq req) (hdec : decodeURIComp (cidPartOf req) = some s)
    (hparse : cidParse s = some c)
    (hget : mapGet st.providersByCid (cidToString c) = some entry)
    (hexp : entry.expiresAt ≤ now) :
    handleRequest req st now
      = (HandlerOutcome.response 404 (Body.providers []),
         ⟨mapDelete st.providersByCid (cidToString c), st.providerQueryCount + 1⟩) := by
  unfold handleRequest
  rw [if_pos h]
  simp only [hdec, hparse, hget]
  rw [if_pos hexp]

theorem handleRequest_hit (req : Request) (st : ServerState) (now : Nat) (s : String)
    (c : Cid) (entry : DirEntry)
    (h : isLookupReq req) (hdec : decodeURIComp (cidPartOf req) = some s)
    (hparse : cidParse s = some c)
    (hget : mapGet st.providersByCid (cidToString c) = some entry)
    (hlive : ¬ entry.expiresAt ≤ now) :
    handleRequest req st now
      = (HandlerOutcome.response 200 (Body.providers [entry.peerRecord]),
         ⟨st.providersByCid, st.providerQueryCount + 1⟩) := by
  unfold handleRequest
  rw [if_pos h]
  simp only [hdec, hparse, hget]
  rw [if_neg hlive]

theorem handleRequest_count (req : Request) (st : ServerState) (now : Nat) :
    (handleRequest req st now).2.providerQueryCount
      = if isLookupReq req then st.providerQueryCount + 1 else st.providerQueryCount := by
  by_cases h : isLookupReq req
  · rw [if_pos h]
    cases hdec : decodeURIComp (cidPartOf req) with
    | none => rw [handleRequest_thrown req st now h hdec]
    | some s =>
      cases hparse : cidParse s with
      | none => rw [handleRequest_invalid req st now s h hdec hparse]
      | some c =>
        cases hget : mapGet st.providersByCid (cidToString c) with
        | none => rw [handleRequest_miss req st now s c h hdec hparse hget]
        | some entry =>
          by_cases hexp : entry.expiresAt ≤ now
          · rw [handleRequest_expired req st now s c entry h hdec hparse hget hexp]
          · rw [handleRequest_hit req st now s c entry h hdec hparse hget hexp]
  · rw [if_neg h, handleRequest_not_lookup req st now h]

theorem handleRequest_map_cases (req : Request) (st : ServerState) (now : Nat) :
    (handleRequest req st now).2.providersByCid = st.providersByCid ∨
    ∃ k, (handleRequest req st now).2.providersByCid = mapDelete st.providersByCid k := by
  by_cases h : isLookupReq req
  · cases hdec : decodeURIComp (cidPartOf req) with
    | none => rw [handleRequest_thrown req st now h hdec]; exact Or.inl rfl
    | some s =>
      cases hparse : cidParse s with
      | none => rw [handleRequest_invalid req st now s h hdec hparse]; exact Or.inl rfl
      | some c =>
        cases hget : mapGet st.providersByCid (cidToString c) with
        | none => rw [handleRequest_miss req st now s c h hdec hparse hget]; exact Or.inl rfl
        | some entry =>
          by_cases hexp : entry.expiresAt ≤ now
          · rw [handleRequest_expired req st now s c entry h hdec hparse hget hexp]
            exact Or.inr ⟨cidToString c, rfl⟩
          · rw [handleRequest_hit req st now s c entry h hdec hparse hget hexp]
            exact Or.inl rfl
  · rw [handleRequest_not_lookup req st now h]; exact Or.inl rfl

/-! ## Reachable-state invariant -/

theorem canonKey_toString_good {c : Cid} (h : CidGood c) : CanonKey (cidToString c) := by
  unfold CanonKey normStr
  rw [cidParse_toString_good h]
  rfl

theorem announceProvider_good_eq (st : ServerState) {c : Cid} (r : ProviderRecord) (now : Nat)
    (h : CidGood c) :
    announceProvider st c r now
      = { st with providersByCid :=
            mapSet st.providersByCid (cidToString c) ⟨r, now + PROVIDER_TTL_MS⟩ } := by
  unfold announceProvider
  rw [cidParse_toString_good h]

theorem reachable_wf_canon {st : ServerState} (h : Reachable st) :
    MapWf st.providersByCid ∧ ∀ k ∈ mapKeys st.providersByCid, CanonKey k := by
  induction h with
  | init =>
    constructor
    · simp [MapWf, mapKeys]
    · intro k hk; cases hk
  | handle req now st hst ih =>
    rcases handleRequest_map_cases req st now with heq | ⟨k, heq⟩
    · rw [heq]; exact ih
    · rw [heq]
      exact ⟨mapWf_delete _ _ ih.1, fun k2 hk2 => ih.2 k2 (mem_mapKeys_delete _ _ k2 hk2)⟩
  | announce c r now st hst hgood ih =>
    rw [announceProvider_good_eq st r now hgood]
    constructor
    · exact mapWf_set _ _ _ ih.1
    · intro k hk
      rcases mem_mapKeys_set _ _ _ k hk with h2 | h2
      · rw [h2]; exact canonKey_toString_good hgood
      · exact ih.2 k h2

end DelegatedRouting

namespace DelegatedRouting

/-! ## Claim theorems -/

/-- Claim C1: for every HTTP request handled by the routing server, a GET on
the providers route whose (percent-decoded) identifier parses and has a live
entry gets 200 with exactly the stored provider record; a parseable
identifier with no live entry (absent or expired) gets 404 with an empty
providers body; an identifier that fails to parse gets 422 with an empty
providers body; and any other path or method gets the catch-all 404
`{"message": "not found"}`. -/
theorem routing_server_response_cases (req : Request) (st : ServerState) (now : Nat) :
    (∀ s c entry, isLookupReq req → decodeURIComp (cidPartOf req) = some s →
      cidParse s = some c → mapGet st.providersByCid (cidToString c) = some entry →
      now < entry.expiresAt →
      handleRequest req st now
        = (HandlerOutcome.response 200 (Body.providers [entry.peerRecord]),
           ⟨st.providersByCid, st.providerQueryCount + 1⟩)) ∧
    (∀ s c, isLookupReq req → decodeURIComp (cidPartOf req) = some s →
      cidParse s = some c → mapGet st.providersByCid (cidToString c) = none →
      handleRequest req st now
        = (HandlerOutcome.response 404 (Body.providers []),
           ⟨st.providersByCid, st.providerQueryCount + 1⟩)) ∧
    (∀ s c entry, isLookupReq req → decodeURIComp (cidPartOf req) = some s →
      cidParse s = some c → mapGet st.providersByCid (cidToString c) = some entry →
      entry.expiresAt ≤ now →
      handleRequest req st now
        = (HandlerOutcome.response 404 (Body.providers []),
           ⟨mapDelete st.providersByCid (cidToString c), st.providerQueryCount + 1⟩)) ∧
    (∀ s, isLookupReq req → decodeURIComp (cidPartOf req) = some s →
      cidParse s = none →
      handleRequest req st now
        = (HandlerOutcome.response 422 (Body.providers []),
           ⟨st.providersByCid, st.providerQueryCount + 1⟩)) ∧
    (¬ isLookupReq req →
      handleRequest req st now
        = (HandlerOutcome.response 404 (Body.message "not found"), st)) := by
  refine ⟨?_, ?_, ?_, ?_, ?_⟩
  · intro s c entry h hdec hparse hget hlive
    exact handleRequest_hit req st now s c entry h hdec hparse hget (by omega)
  · intro s c h hdec hparse hget
    exact handleRequest_miss req st now s c h hdec hparse hget
  · intro s c entry h hdec hparse hget hexp
    exact handleRequest_expired req st now s c entry h hdec hparse hget hexp
  · intro s h hdec hparse
    exact handleRequest_invalid req st now s h hdec hparse
  · intro h
    exact handleRequest_not_lookup req st now h

/-- Witness for C1: concrete requests hitting each of the five cases — a
200 hit, a 404 miss, a 404 expired lookup, a 422 invalid identifier, and the
catch-all 404 for an unrelated path. -/
theorem routing_server_response_cases_witness :
    (handleRequest ⟨"GET", "/routing/v1/providers/bafkreaia"⟩
        ⟨[("bafkreaia", ⟨⟨"peerA", ["/ip4/127.0.0.1/tcp/4001"], []⟩, 100⟩)], 7⟩ 5
      = (HandlerOutcome.response 200
           (Body.providers [⟨"peerA", ["/ip4/127.0.0.1/tcp/4001"], []⟩]),
         ⟨[("bafkreaia", ⟨⟨"peerA", ["/ip4/127.0.0.1/tcp/4001"], []⟩, 100⟩)], 8⟩)) ∧
    (handleRequest ⟨"GET", "/routing/v1/providers/bafkreaia"⟩ ⟨[], 0⟩ 5
      = (HandlerOutcome.response 404 (Body.providers []), ⟨[], 1⟩)) ∧
    (handleRequest ⟨"GET", "/routing/v1/providers/bafkreaia"⟩
        ⟨[("bafkreaia", ⟨⟨"peerA", [], []⟩, 100⟩)], 0⟩ 200
      = (HandlerOutcome.response 404 (Body.providers []),
         ⟨mapDelete [("bafkreaia", ⟨⟨"peerA", [], []⟩, 100⟩)]
            (cidToString (cidCreateV1 85 18 [0])), 1⟩)) ∧
    (handleRequest ⟨"GET", "/routing/v1/providers/not-a-cid"⟩ ⟨[], 0⟩ 5
      = (HandlerOutcome.response 422 (Body.providers []), ⟨[], 1⟩)) ∧
    (handleRequest ⟨"POST", "/other"⟩ ⟨[], 0⟩ 5
      = (HandlerOutcome.response 404 (Body.message "not found"), ⟨[], 0⟩)) :=
  ⟨(routing_server_response_cases ⟨"GET", "/routing/v1/providers/bafkreaia"⟩
      ⟨[("bafkreaia", ⟨⟨"peerA", ["/ip4/127.0.0.1/tcp/4001"], []⟩, 100⟩)], 7⟩ 5).1
    "bafkreaia" (cidCreateV1 85 18 [0])
    ⟨⟨"peerA", ["/ip4/127.0.0.1/tcp/4001"], []⟩, 100⟩
    (by decide) (by decide) (by decide) (by decide) (by decide),
   (routing_server_response_cases ⟨"GET", "/routing/v1/providers/bafkreaia"⟩ ⟨[], 0⟩ 5).2.1
    "bafkreaia" (cidCreateV1 85 18 [0]) (by decide) (by decide) (by decide) (by decide),
   (routing_server_response_cases ⟨"GET", "/routing/v1/providers/bafkreaia"⟩
      ⟨[("bafkreaia", ⟨⟨"peerA", [], []⟩, 100⟩)], 0⟩ 200).2.2.1
    "bafkreaia" (cidCreateV1 85 18 [0]) ⟨⟨"peerA", [], []⟩, 100⟩
    (by decide) (by decide) (by decide) (by decide) (by decide),
   (routing_server_response_cases ⟨"GET", "/routing/v1/providers/not-a-cid"⟩ ⟨[], 0⟩ 5).2.2.2.1
    "not-a-cid" (by decide) (by decide) (by decide),
   (routing_server_response_cases ⟨"POST", "/other"⟩ ⟨[], 0⟩ 5).2.2.2.2 (by decide)⟩

/-- Claim C2 (the code violates it): a request whose identifier path segment
is a malformed percent-encoding makes `decodeURIComponent` throw a
`URIError` outside the handler's try/catch, so the exception escapes the
handler boundary instead of being turned into an HTTP response — with Node's
default behavior this kills the process.  Concretely, `%zz` crashes. -/
theorem percent_decode_uriError_escapes :
    handleRequest ⟨"GET", "/routing/v1/providers/%zz"⟩ ⟨[], 0⟩ 0
      = (HandlerOutcome.thrown, ⟨[], 1⟩) := by
  decide

end DelegatedRouting

namespace DelegatedRouting

/-- Claim C3: TTL correctness.  After the code's `announceProvider` (whose
TTL is the fixed `PROVIDER_TTL_MS`), a lookup one millisecond before expiry
returns the record and a lookup one millisecond after expiry returns none;
the same window holds for the spec-level `announce` at every TTL `T ≥ 1`;
and in general a lookup returns the stored record exactly when an entry
exists and `now < expiresAt`. -/
theorem ttl_correctness :
    (∀ (st : ServerState) (c : Cid) (r : ProviderRecord) (t0 : Nat), CidGood c →
      (lookupProvider (announceProvider st c r t0).providersByCid (cidToString c)
          (t0 + PROVIDER_TTL_MS - 1)).1 = some r ∧
      (lookupProvider (announceProvider st c r t0).providersByCid (cidToString c)
          (t0 + PROVIDER_TTL_MS + 1)).1 = none) ∧
    (∀ (T : Nat) (st : ServerState) (c : Cid) (r : ProviderRecord) (t0 : Nat), 1 ≤ T →
      (lookupProvider (announceSpec T st c r t0).providersByCid (cidToString c)
          (t0 + T - 1)).1 = some r ∧
      (lookupProvider (announceSpec T st c r t0).providersByCid (cidToString c)
          (t0 + T + 1)).1 = none) ∧
    (∀ (m : DirMap) (id : String) (now : Nat) (r : ProviderRecord),
      (lookupProvider m id now).1 = some r ↔
        ∃ e, mapGet m id = some e ∧ e.peerRecord = r ∧ now < e.expiresAt) := by
  have hT : PROVIDER_TTL_MS = 86400000 := rfl
  refine ⟨?_, ?_, ?_⟩
  · intro st c r t0 hgood
    rw [announceProvider_good_eq st r t0 hgood]
    constructor
    · unfold lookupProvider
      rw [mapGet_set_self]
      simp only
      rw [if_neg (by omega)]
    · unfold lookupProvider
      rw [mapGet_set_self]
      simp only
      rw [if_pos (by omega)]
  · intro T st c r t0 hT1
    constructor
    · unfold lookupProvider announceSpec
      rw [mapGet_set_self]
      simp only
      rw [if_neg (by omega)]
    · unfold lookupProvider announceSpec
      rw [mapGet_set_self]
      simp only
      rw [if_pos (by omega)]
  · intro m id now r
    unfold lookupProvider
    cases hget : mapGet m id with
    | none =>
      simp only
      constructor
      · intro h; cases h
      · rintro ⟨e, he, _, _⟩; cases he
    | some e =>
      simp only
      by_cases hexp : e.expiresAt ≤ now
      · rw [if_pos hexp]
        constructor
        · intro h; cases h
        · rintro ⟨e2, he2, _, hlt⟩
          have : e2 = e := (Option.some_inj.mp he2).symm
          subst this
          omega
      · rw [if_neg hexp]
        constructor
        · intro h
          exact ⟨e, rfl, Option.some_inj.mp h, by omega⟩
        · rintro ⟨e2, he2, hr, _⟩
          have : e2 = e := Option.some_inj.mp he2.symm
          subst this
          rw [hr]
  
/-- Witness for C3: the concrete TTL window for an announcement at `t0 = 10`. -/
theorem ttl_correctness_witness :
    (lookupProvider
        (announceProvider ⟨[], 0⟩ (cidCreateV1 85 18 [0])
          ⟨"peerA", ["/ip4/127.0.0.1/tcp/4001"], []⟩ 10).providersByCid
        (cidToString (cidCreateV1 85 18 [0])) (10 + PROVIDER_TTL_MS - 1)).1
      = some ⟨"peerA", ["/ip4/127.0.0.1/tcp/4001"], []⟩ ∧
    (lookupProvider
        (announceProvider ⟨[], 0⟩ (cidCreateV1 85 18 [0])
          ⟨"peerA", ["/ip4/127.0.0.1/tcp/4001"], []⟩ 10).providersByCid
        (cidToString (cidCreateV1 85 18 [0])) (10 + PROVIDER_TTL_MS + 1)).1
      = none :=
  ttl_correctness.1 ⟨[], 0⟩ (cidCreateV1 85 18 [0])
    ⟨"peerA", ["/ip4/127.0.0.1/tcp/4001"], []⟩ 10 (by decide)

/-- Claim C4: eviction on read.  If a lookup observes the entry expired, the
entry is removed as part of that lookup, and any lookup at the same or later
time finds nothing — an expired record is never returned twice. -/
theorem eviction_on_read (m : DirMap) (id : String) (now now2 : Nat) (entry : DirEntry)
    (hwf : MapWf m) (hget : mapGet m id = some entry) (hexp : entry.expiresAt ≤ now)
    (hle : now ≤ now2) :
    (lookupProvider m id now).1 = none ∧
    (lookupProvider m id now).2 = mapDelete m id ∧
    mapGet (lookupProvider m id now).2 id = none ∧
    lookupProvider (lookupProvider m id now).2 id now2 = (none, mapDelete m id) := by
  have hstep : lookupProvider m id now = (none, mapDelete m id) := by
    unfold lookupProvider
    rw [hget]
    simp only
    rw [if_pos hexp]
  have hdel : mapGet (mapDelete m id) id = none := mapGet_delete_self m id hwf
  refine ⟨by rw [hstep], by rw [hstep], by rw [hstep]; exact hdel, ?_⟩
  rw [hstep]
  show lookupProvider (mapDelete m id) id now2 = (none, mapDelete m id)
  unfold lookupProvider
  rw [hdel]

/-- Witness for C4: a concrete expired entry is evicted and stays gone. -/
theorem eviction_on_read_witness :
    (lookupProvider [("k", ⟨⟨"peerA", [], []⟩, 50⟩)] "k" 60).1 = none ∧
    (lookupProvider [("k", ⟨⟨"peerA", [], []⟩, 50⟩)] "k" 60).2
      = mapDelete [("k", ⟨⟨"peerA", [], []⟩, 50⟩)] "k" ∧
    mapGet (lookupProvider [("k", ⟨⟨"peerA", [], []⟩, 50⟩)] "k" 60).2 "k" = none ∧
    lookupProvider (lookupProvider [("k", ⟨⟨"peerA", [], []⟩, 50⟩)] "k" 60).2 "k" 70
      = (none, mapDelete [("k", ⟨⟨"peerA", [], []⟩, 50⟩)] "k") :=
  eviction_on_read [("k", ⟨⟨"peerA", [], []⟩, 50⟩)] "k" 60 70 ⟨⟨"peerA", [], []⟩, 50⟩
    (by decide) (by decide) (by decide) (by decide)

/-- Claim C5: in every reachable directory state the map keys are
duplicate-free and any two keys with the same canonicalization are equal
(at most one entry per canonical identifier), and announcing `r1` then `r2`
for the same identifier leaves exactly `r2` stored (wholesale overwrite,
no merge), so only `r2` is discoverable. -/
theorem single_entry_and_overwrite :
    (∀ st : ServerState, Reachable st →
      MapWf st.providersByCid ∧
      ∀ k1 k2, k1 ∈ mapKeys st.providersByCid → k2 ∈ mapKeys st.providersByCid →
        normStr k1 = normStr k2 → k1 = k2) ∧
    (∀ (st : ServerState) (c : Cid) (r1 r2 : ProviderRecord) (n1 n2 : Nat), CidGood c →
      mapGet (announceProvider (announceProvider st c r1 n1) c r2 n2).providersByCid
          (cidToString c) = some ⟨r2, n2 + PROVIDER_TTL_MS⟩ ∧
      ∀ now, now < n2 + PROVIDER_TTL_MS →
        (lookupProvider (announceProvider (announceProvider st c r1 n1) c r2 n2).providersByCid
            (cidToString c) now).1 = some r2) := by
  constructor
  · intro st hreach
    obtain ⟨hwf, hcanon⟩ := reachable_wf_canon hreach
    refine ⟨hwf, ?_⟩
    intro k1 k2 h1 h2 heq
    have e1 : normStr k1 = some k1 := hcanon k1 h1
    have e2 : normStr k2 = some k2 := hcanon k2 h2
    rw [e1, e2] at heq
    exact Option.some_inj.mp heq
  · intro st c r1 r2 n1 n2 hgood
    rw [announceProvider_good_eq _ _ _ hgood, announceProvider_good_eq _ _ _ hgood]
    simp only
    constructor
    · rw [show (mapSet (mapSet st.providersByCid (cidToString c) ⟨r1, n1 + PROVIDER_TTL_MS⟩)
          (cidToString c) ⟨r2, n2 + PROVIDER_TTL_MS⟩) = mapSet (mapSet st.providersByCid
          (cidToString c) ⟨r1, n1 + PROVIDER_TTL_MS⟩) (cidToString c)
          ⟨r2, n2 + PROVIDER_TTL_MS⟩ from rfl]
      exact mapGet_set_self _ _ _
    · intro now hnow
      unfold lookupProvider
      rw [mapGet_set_self]
      simp only
      rw [if_neg (by omega)]

/-- Witness for C5: overwriting a concrete announcement leaves only the
second record stored. -/
theorem single_entry_and_overwrite_witness :
    mapGet (announceProvider (announceProvider ⟨[], 0⟩ (cidCreateV1 85 18 [0])
          ⟨"peerA", [], []⟩ 0) (cidCreateV1 85 18 [0]) ⟨"peerB", [], []⟩ 5).providersByCid
        (cidToString (cidCreateV1 85 18 [0]))
      = some ⟨⟨"peerB", [], []⟩, 5 + PROVIDER_TTL_MS⟩ ∧
    (lookupProvider (announceProvider (announceProvider ⟨[], 0⟩ (cidCreateV1 85 18 [0])
          ⟨"peerA", [], []⟩ 0) (cidCreateV1 85 18 [0]) ⟨"peerB", [], []⟩ 5).providersByCid
        (cidToString (cidCreateV1 85 18 [0])) 9).1 = some ⟨"peerB", [], []⟩ :=
  ⟨(single_entry_and_overwrite.2 ⟨[], 0⟩ (cidCreateV1 85 18 [0])
    ⟨"peerA", [], []⟩ ⟨"peerB", [], []⟩ 0 5 (by decide)).1,
   (single_entry_and_overwrite.2 ⟨[], 0⟩ (cidCreateV1 85 18 [0])
    ⟨"peerA", [], []⟩ ⟨"peerB", [], []⟩ 0 5 (by decide)).2 9 (by decide)⟩

end DelegatedRouting

namespace DelegatedRouting

/-- Claim C6: counter monotonicity.  One handled request increments the
query counter by exactly one when it is a provider-lookup request — whatever
the outcome, including a thrown percent-decoding error, since the increment
precedes parsing — and leaves it unchanged for any other path or method; the
counter never decreases. -/
theorem query_count_per_request (req : Request) (st : ServerState) (now : Nat) :
    getProviderQueryCount (handleRequest req st now).2
      = (if isLookupReq req then getProviderQueryCount st + 1 else getProviderQueryCount st) ∧
    getProviderQueryCount st ≤ getProviderQueryCount (handleRequest req st now).2 := by
  have h := handleRequest_count req st now
  constructor
  · exact h
  · rw [show getProviderQueryCount (handleRequest req st now).2
        = (handleRequest req st now).2.providerQueryCount from rfl, h]
    by_cases hc : isLookupReq req
    · rw [if_pos hc]; exact Nat.le_succ _
    · rw [if_neg hc]; exact Nat.le_refl _

/-- Claim C7: key derivation.  The canonical string of
`pubsubTopicToDhtKeyCid t` is exactly the spec's algorithm — the
base32-multibase serialization of a version-1 content identifier with
content-type code 0x55 wrapping a 0x12-tagged multihash of the 32-byte
SHA-256 of the UTF-8 bytes of `"floodsub:" ++ t` — the digest really is 32
bytes, and the derivation is deterministic. -/
theorem derive_key_algorithm (t : String) :
    cidToString (pubsubTopicToDhtKeyCid t) = deriveSpecStr t ∧
    (sha256Bytes (utf8Bytes ("floodsub:" ++ t))).length = 32 ∧
    (∀ t2, t2 = t →
      cidToString (pubsubTopicToDhtKeyCid t2) = cidToString (pubsubTopicToDhtKeyCid t)) := by
  refine ⟨derive_eq_specStr t, sha256Bytes_length _, ?_⟩
  intro t2 ht
  rw [ht]

/-- Witness for C7 at the repro's default topic. -/
theorem derive_key_algorithm_witness :
    cidToString (pubsubTopicToDhtKeyCid "/plebbit/pubsub-repro/1")
        = deriveSpecStr "/plebbit/pubsub-repro/1" ∧
    (sha256Bytes (utf8Bytes ("floodsub:" ++ "/plebbit/pubsub-repro/1"))).length = 32 ∧
    cidToString (pubsubTopicToDhtKeyCid "/plebbit/pubsub-repro/1")
      = cidToString (pubsubTopicToDhtKeyCid "/plebbit/pubsub-repro/1") :=
  ⟨(derive_key_algorithm "/plebbit/pubsub-repro/1").1,
   (derive_key_algorithm "/plebbit/pubsub-repro/1").2.1,
   (derive_key_algorithm "/plebbit/pubsub-repro/1").2.2 "/plebbit/pubsub-repro/1" rfl⟩

/-- Claim C8 as stated is false (see `announce_ttl_not_configurable_cex`):
`announceProvider` takes no TTL argument and always stamps the hard-coded
module constant `PROVIDER_TTL_MS`.  Amended claim: announce always succeeds
for a well-formed identifier, inserting or overwriting the entry with
`expiresAt = now + PROVIDER_TTL_MS`, and agrees with the spec's
`announce(id, record, ttl, now)` exactly at `ttl = PROVIDER_TTL_MS`, whose
value is the fixed 24 hours. -/
theorem announce_contract_fixed_ttl (st : ServerState) (c : Cid) (r : ProviderRecord)
    (now : Nat) (h : CidGood c) :
    announceProvider st c r now = announceSpec PROVIDER_TTL_MS st c r now ∧
    mapGet (announceProvider st c r now).providersByCid (cidToString c)
      = some ⟨r, now + PROVIDER_TTL_MS⟩ ∧
    PROVIDER_TTL_MS = 24 * 60 * 60 * 1000 := by
  refine ⟨?_, ?_, rfl⟩
  · rw [announceProvider_good_eq st r now h]
    unfold announceSpec
    rfl
  · rw [announceProvider_good_eq st r now h]
    exact mapGet_set_self _ _ _

/-- Witness for C8's amended claim at a concrete announcement. -/
theorem announce_contract_fixed_ttl_witness :
    announceProvider ⟨[], 3⟩ (cidCreateV1 85 18 [0]) ⟨"peerA", [], []⟩ 7
        = announceSpec PROVIDER_TTL_MS ⟨[], 3⟩ (cidCreateV1 85 18 [0]) ⟨"peerA", [], []⟩ 7 ∧
    mapGet (announceProvider ⟨[], 3⟩ (cidCreateV1 85 18 [0])
          ⟨"peerA", [], []⟩ 7).providersByCid (cidToString (cidCreateV1 85 18 [0]))
        = some ⟨⟨"peerA", [], []⟩, 7 + PROVIDER_TTL_MS⟩ ∧
    PROVIDER_TTL_MS = 24 * 60 * 60 * 1000 :=
  announce_contract_fixed_ttl ⟨[], 3⟩ (cidCreateV1 85 18 [0]) ⟨"peerA", [], []⟩ 7 (by decide)

/-- Counterexample for C8 as stated: the code's announce does not honor a
caller-chosen TTL — announcing with intended `ttl = 1000` at `now = 0` does
not produce the state the spec's announce produces, because the stored
expiry is the hard-coded 24-hour constant. -/
theorem announce_ttl_not_configurable_cex :
    announceProvider ⟨[], 0⟩ (cidCreateV1 85 18 [0]) ⟨"peerA", [], []⟩ 0
      ≠ announceSpec 1000 ⟨[], 0⟩ (cidCreateV1 85 18 [0]) ⟨"peerA", [], []⟩ 0 := by
  decide

/-- Claim C9: round-trip.  Every valid canonical identifier string — the
canonical serialization of a well-formed CIDv1 or of a standard CIDv0 —
re-parses to the same identifier, so `serialize(parse(s)) = s`; and two
valid identifiers are equal exactly when their canonical serializations are
equal. -/
theorem canonical_round_trip :
    (∀ (s : String) (c : Cid), CidGood c → cidToString c = s →
      (cidParse s).map cidToString = some s) ∧
    (∀ c : Cid, CidGood c → cidParse (cidToString c) = some c) ∧
    (∀ c1 c2 : Cid, CidGood c1 → CidGood c2 →
      (cidToString c1 = cidToString c2 ↔ c1 = c2)) := by
  refine ⟨?_, ?_, ?_⟩
  · intro s c hgood hs
    rw [← hs, cidParse_toString_good hgood]
    rfl
  · intro c hgood
    exact cidParse_toString_good hgood
  · intro c1 c2 h1 h2
    constructor
    · exact cidToString_inj_good h1 h2
    · intro h; rw [h]

/-- Witness for C9: a concrete CIDv1 round-trips through its canonical
string. -/
theorem canonical_round_trip_witness :
    cidParse (cidToString (cidCreateV1 85 18 [0])) = some (cidCreateV1 85 18 [0]) :=
  canonical_round_trip.2.1 (cidCreateV1 85 18 [0]) (by decide)

/-- Claim C10: frame properties.  Announce changes no directory entry other
than the canonicalization of the announced identifier and never touches the
request counter; a provider lookup that finds a live entry leaves the whole
map unchanged; an expired lookup removes exactly the queried key; and a
handled request leaves every key other than the one it operates on
unchanged (including all requests that decode, parse or look up nothing). -/
theorem frame_properties :
    (∀ (st : ServerState) (c : Cid) (r : ProviderRecord) (now : Nat) (k : String),
      CidGood c → k ≠ cidToString c →
      mapGet (announceProvider st c r now).providersByCid k
        = mapGet st.providersByCid k) ∧
    (∀ (st : ServerState) (c : Cid) (r : ProviderRecord) (now : Nat),
      (announceProvider st c r now).providerQueryCount = st.providerQueryCount) ∧
    (∀ (req : Request) (st : ServerState) (now : Nat) (s : String) (c : Cid)
        (entry : DirEntry),
      isLookupReq req → decodeURIComp (cidPartOf req) = some s → cidParse s = some c →
      mapGet st.providersByCid (cidToString c) = some entry → now < entry.expiresAt →
      (handleRequest req st now).2.providersByCid = st.providersByCid) ∧
    (∀ (req : Request) (st : ServerState) (now : Nat) (s : String) (c : Cid)
        (entry : DirEntry),
      isLookupReq req → decodeURIComp (cidPartOf req) = some s → cidParse s = some c →
      mapGet st.providersByCid (cidToString c) = some entry → entry.expiresAt ≤ now →
      MapWf st.providersByCid →
      mapGet (handleRequest req st now).2.providersByCid (cidToString c) = none ∧
      ∀ k, k ≠ cidToString c →
        mapGet (handleRequest req st now).2.providersByCid k
          = mapGet st.providersByCid k) ∧
    (∀ (req : Request) (st : ServerState) (now : Nat) (k : String),
      (∀ (s : String) (c : Cid), decodeURIComp (cidPartOf req) = some s →
        cidParse s = some c → k ≠ cidToString c) →
      mapGet (handleRequest req st now).2.providersByCid k
        = mapGet st.providersByCid k) := by
  refine ⟨?_, ?_, ?_, ?_, ?_⟩
  · intro st c r now k hgood hk
    rw [announceProvider_good_eq st r now hgood]
    exact mapGet_set_ne _ _ _ _ hk
  · intro st c r now
    unfold announceProvider
    cases cidParse (cidToString c) with
    | none => rfl
    | some c2 => rfl
  · intro req st now s c entry h hdec hparse hget hlive
    rw [handleRequest_hit req st now s c entry h hdec hparse hget (by omega)]
  · intro req st now s c entry h hdec hparse hget hexp hwf
    rw [handleRequest_expired req st now s c entry h hdec hparse hget hexp]
    exact ⟨mapGet_delete_self _ _ hwf, fun k hk => mapGet_delete_ne _ _ _ hk⟩
  · intro req st now k hk
    by_cases h : isLookupReq req
    · cases hdec : decodeURIComp (cidPartOf req) with
      | none => rw [handleRequest_thrown req st now h hdec]
      | some s =>
        cases hparse : cidParse s with
        | none => rw [handleRequest_invalid req st now s h hdec hparse]
        | some c =>
          cases hget : mapGet st.providersByCid (cidToString c) with
          | none => rw [handleRequest_miss req st now s c h hdec hparse hget]
          | some entry =>
            by_cases hexp : entry.expiresAt ≤ now
            · rw [handleRequest_expired req st now s c entry h hdec hparse hget hexp]
              exact mapGet_delete_ne _ _ _ (hk s c hdec hparse)
            · rw [handleRequest_hit req st now s c entry h hdec hparse hget hexp]
    · rw [handleRequest_not_lookup req st now h]

/-- Witness for C10: announcing a concrete identifier leaves an unrelated
key untouched, a concrete 200 lookup leaves the whole map unchanged, a
concrete expired lookup removes exactly the queried key, and a handled
request leaves a concrete other key unchanged. -/
theorem frame_properties_witness :
    (mapGet (announceProvider ⟨[("aa", ⟨⟨"peerZ", [], []⟩, 9⟩)], 2⟩ (cidCreateV1 85 18 [0])
          ⟨"peerA", [], []⟩ 3).providersByCid "aa"
      = mapGet [("aa", ⟨⟨"peerZ", [], []⟩, 9⟩)] "aa") ∧
    ((handleRequest ⟨"GET", "/routing/v1/providers/bafkreaia"⟩
        ⟨[("bafkreaia", ⟨⟨"peerA", [], []⟩, 100⟩)], 0⟩ 5).2.providersByCid
      = [("bafkreaia", ⟨⟨"peerA", [], []⟩, 100⟩)]) ∧
    (mapGet (handleRequest ⟨"GET", "/routing/v1/providers/bafkreaia"⟩
        ⟨[("bafkreaia", ⟨⟨"peerA", [], []⟩, 100⟩)], 0⟩ 200).2.providersByCid
        (cidToString (cidCreateV1 85 18 [0])) = none) ∧
    (mapGet (handleRequest ⟨"GET", "/routing/v1/providers/bafkreaia"⟩
        ⟨[("aa", ⟨⟨"peerZ", [], []⟩, 9⟩)], 0⟩ 5).2.providersByCid "aa"
      = mapGet [("aa", ⟨⟨"peerZ", [], []⟩, 9⟩)] "aa") :=
  ⟨frame_properties.1 ⟨[("aa", ⟨⟨"peerZ", [], []⟩, 9⟩)], 2⟩ (cidCreateV1 85 18 [0])
    ⟨"peerA", [], []⟩ 3 "aa" (by decide) (by decide),
   frame_properties.2.2.1 ⟨"GET", "/routing/v1/providers/bafkreaia"⟩
    ⟨[("bafkreaia", ⟨⟨"peerA", [], []⟩, 100⟩)], 0⟩ 5 "bafkreaia" (cidCreateV1 85 18 [0])
    ⟨⟨"peerA", [], []⟩, 100⟩ (by decide) (by decide) (by decide) (by decide) (by decide),
   (frame_properties.2.2.2.1 ⟨"GET", "/routing/v1/providers/bafkreaia"⟩
    ⟨[("bafkreaia", ⟨⟨"peerA", [], []⟩, 100⟩)], 0⟩ 200 "bafkreaia" (cidCreateV1 85 18 [0])
    ⟨⟨"peerA", [], []⟩, 100⟩ (by decide) (by decide) (by decide) (by decide) (by decide)
    (by decide)).1,
   frame_properties.2.2.2.2 ⟨"GET", "/routing/v1/providers/bafkreaia"⟩
    ⟨[("aa", ⟨⟨"peerZ", [], []⟩, 9⟩)], 0⟩ 5 "aa"
    (fun s c hs hc => by
      have hs2 : s = "bafkreaia" := by
        have := hs
        simp only [cidPartOf] at this
        exact Option.some_inj.mp (by rw [← this]; decide)
      subst hs2
      have hc2 : c = cidCreateV1 85 18 [0] := by
        rw [show cidParse "bafkreaia" = some (cidCreateV1 85 18 [0]) from by decide] at hc
        exact Option.some_inj.mp hc.symm
      subst hc2
      decide)⟩

end DelegatedRouting
